import Mathlib

/-!
Verification development for the COMSOL batch-generation pipeline.

The pipeline lives in two Python scripts:
  scripts/batch_generator_fixed.py  (class COMSOLBatchGenerator)
  scripts/batch_demo.py             (class COMSOLBatchGeneratorDemo)

We embed the algorithmic core shallowly:
  - numeric parameter values become rationals;
  - Python dicts keyed by parameter name become association lists;
  - the global random source becomes an explicit stream of draws;
  - in-place `random.shuffle` becomes an explicit permutation argument;
  - exceptions become `Option` results.

Every definition is transcribed from the Python source, with the source
location given in its doc comment.
-/

/-- Rounding to the nearest integer with ties going to the even integer.
This is the behaviour of Python's built-in `round` on the ideal value. -/
def roundHalfEven (q : ℚ) : ℤ :=
  let f := ⌊q⌋
  let r := q - (f : ℚ)
  if r < mkRat 1 2 then f
  else if mkRat 1 2 < r then f + 1
  else if f % 2 = 0 then f else f + 1

theorem roundHalfEven_eq_floor_or_succ (q : ℚ) :
    roundHalfEven q = ⌊q⌋ ∨ roundHalfEven q = ⌊q⌋ + 1 := by
  unfold roundHalfEven
  dsimp only
  split_ifs <;> simp

theorem le_roundHalfEven {c : ℤ} {q : ℚ} (h : (c : ℚ) ≤ q) :
    c ≤ roundHalfEven q := by
  have hf : c ≤ ⌊q⌋ := Int.le_floor.mpr h
  rcases roundHalfEven_eq_floor_or_succ q with h' | h' <;> omega

theorem roundHalfEven_le {c : ℤ} {q : ℚ} (h : q < (c : ℚ)) :
    roundHalfEven q ≤ c := by
  have hf : ⌊q⌋ < c := Int.floor_lt.mpr h
  rcases roundHalfEven_eq_floor_or_succ q with h' | h' <;> omega

/-- The decimal digit character for `n % 10`. -/
def digitCh (n : ℕ) : Char :=
  match n % 10 with
  | 0 => '0' | 1 => '1' | 2 => '2' | 3 => '3' | 4 => '4'
  | 5 => '5' | 6 => '6' | 7 => '7' | 8 => '8' | _ => '9'

/-- Decimal digit characters. -/
def isDigitCh (c : Char) : Bool := '0' ≤ c && c ≤ '9'

theorem isDigitCh_digitCh (n : ℕ) : isDigitCh (digitCh n) = true := by
  unfold digitCh
  have h : n % 10 < 10 := Nat.mod_lt _ (by norm_num)
  interval_cases h : n % 10 <;> simp <;> decide

/-- The decimal digit characters of a natural number, most significant first
(mirrors Python's rendering of a nonnegative integer).  Written with explicit
fuel so that the recursion is structural and evaluates by kernel
reduction. -/
def natDigitsAux : ℕ → ℕ → List Char
  | 0, _ => []
  | fuel + 1, n =>
    if n < 10 then [digitCh n]
    else natDigitsAux fuel (n / 10) ++ [digitCh n]

/-- The decimal digits of `n`, most significant first. -/
def natDigits (n : ℕ) : List Char := natDigitsAux (n + 1) n

theorem natDigitsAux_ne_nil : ∀ (fuel n : ℕ), n < fuel →
    natDigitsAux fuel n ≠ [] := by
  intro fuel
  cases fuel with
  | zero => intro n hn; omega
  | succ fuel =>
    intro n _
    rw [natDigitsAux]
    split <;> simp

theorem natDigits_ne_nil (n : ℕ) : natDigits n ≠ [] :=
  natDigitsAux_ne_nil (n + 1) n (Nat.lt_succ_self n)

theorem natDigitsAux_all_digit : ∀ (fuel n : ℕ), n < fuel →
    ∀ c ∈ natDigitsAux fuel n, isDigitCh c = true := by
  intro fuel
  induction fuel with
  | zero => intro n hn; omega
  | succ fuel ih =>
    intro n hn c hc
    rw [natDigitsAux] at hc
    split at hc
    · simp at hc
      subst hc
      exact isDigitCh_digitCh n
    · rcases List.mem_append.mp hc with h' | h'
      · have hdiv : n / 10 < fuel := by
          have := Nat.div_lt_self (by omega : 0 < n) (by norm_num : 1 < 10)
          omega
        exact ih (n / 10) hdiv c h'
      · simp at h'
        subst h'
        exact isDigitCh_digitCh n

theorem natDigits_all_digit (n : ℕ) : ∀ c ∈ natDigits n, isDigitCh c = true :=
  natDigitsAux_all_digit (n + 1) n (Nat.lt_succ_self n)

theorem natDigits_two_le_length (n : ℕ) (hn : 10 ≤ n) :
    2 ≤ (natDigits n).length := by
  unfold natDigits natDigitsAux
  rw [if_neg (by omega)]
  have hne := natDigitsAux_ne_nil n (n / 10)
    (by have := Nat.div_lt_self (by omega : 0 < n) (by norm_num : 1 < 10); omega)
  rw [List.length_append]
  cases hl : natDigitsAux n (n / 10) with
  | nil => exact absurd hl hne
  | cons a t => simp

/-- `⌊log10 n⌋` for `n ≥ 1` (0 for `n = 0`), with explicit fuel so that the
recursion is structural. -/
def natLog10Aux : ℕ → ℕ → ℕ
  | 0, _ => 0
  | fuel + 1, n => if n < 10 then 0 else natLog10Aux fuel (n / 10) + 1

/-- `⌊log10 n⌋` for `n ≥ 1`. -/
def natLog10 (n : ℕ) : ℕ := natLog10Aux n n

theorem natLog10Aux_bounds : ∀ (fuel n : ℕ), 1 ≤ n → n ≤ fuel →
    10 ^ natLog10Aux fuel n ≤ n ∧ n < 10 ^ (natLog10Aux fuel n + 1) := by
  intro fuel
  induction fuel with
  | zero => intro n h1 h2; omega
  | succ fuel ih =>
    intro n h1 h2
    rw [natLog10Aux]
    split
    · simpa using (by omega : 1 ≤ n ∧ n < 10)
    · rename_i h10
      have hdiv1 : 1 ≤ n / 10 := Nat.le_div_iff_mul_le (by norm_num) |>.mpr (by omega)
      have hdiv2 : n / 10 ≤ fuel := by
        have := Nat.div_lt_self (by omega : 0 < n) (by norm_num : 1 < 10)
        omega
      obtain ⟨hlo, hhi⟩ := ih (n / 10) hdiv1 hdiv2
      constructor
      · calc 10 ^ (natLog10Aux fuel (n / 10) + 1)
            = 10 ^ natLog10Aux fuel (n / 10) * 10 := by ring
          _ ≤ n / 10 * 10 := Nat.mul_le_mul_right 10 hlo
          _ ≤ n := Nat.div_mul_le_self n 10
      · have hmod : n < 10 * (n / 10) + 10 := by
          have := Nat.div_add_mod n 10
          have := Nat.mod_lt n (by norm_num : 0 < 10)
          omega
        calc n < 10 * (n / 10) + 10 := hmod
          _ = (n / 10 + 1) * 10 := by ring
          _ ≤ 10 ^ (natLog10Aux fuel (n / 10) + 1) * 10 :=
            Nat.mul_le_mul_right 10 (by omega)
          _ = 10 ^ (natLog10Aux fuel (n / 10) + 1 + 1) := by ring

theorem natLog10_bounds (n : ℕ) (h1 : 1 ≤ n) :
    10 ^ natLog10 n ≤ n ∧ n < 10 ^ (natLog10 n + 1) :=
  natLog10Aux_bounds n n h1 (Nat.le_refl n)

/-- Three zero-padded decimal digits of `m % 1000` (the fractional part of a
value rendered with three decimals). -/
def pad3 (m : ℕ) : List Char :=
  [digitCh (m / 100), digitCh (m / 10), digitCh m]

theorem pad3_all_digit (m : ℕ) : ∀ c ∈ pad3 m, isDigitCh c = true := by
  intro c hc
  simp [pad3] at hc
  rcases hc with h | h | h <;> subst h <;> apply isDigitCh_digitCh

/-! ## Combination Generator

`COMSOLBatchGenerator.generate_parameter_combinations`
(batch_generator_fixed.py, lines 77-87) builds `itertools.product` of the
parameter value lists and zips each tuple with the parameter names. -/

/-- A parameter combination: one chosen value per parameter name.  Python's
`dict(zip(param_names, values))` becomes an association list. -/
abbrev Combo := List (String × ℚ)

/-- The parameter space: each name with its ordered value list
(`config['parameters']`). -/
abbrev ParameterSpace := List (String × List ℚ)

/-- `itertools.product` over a list of value lists, rightmost factor varying
fastest, exactly as the nested loops of `product(*param_values)`. -/
def cartProd {α : Type} : List (List α) → List (List α)
  | [] => [[]]
  | l :: ls => l.flatMap (fun x => (cartProd ls).map (fun t => x :: t))

/-- All combinations, in generation order
(batch_generator_fixed.py, lines 77-85; batch_demo.py, lines 67-75). -/
def generateCombinations (space : ParameterSpace) : List Combo :=
  (cartProd (space.map Prod.snd)).map (fun vs => (space.map Prod.fst).zip vs)

theorem cartProd_length {α : Type} (ls : List (List α)) :
    (cartProd ls).length = (ls.map List.length).prod := by
  induction ls with
  | nil => rfl
  | cons l ls ih =>
    simp [cartProd, List.length_flatMap, Function.comp_def, ih,
      List.map_const', List.sum_replicate, smul_eq_mul, Nat.mul_comm]

theorem cartProd_mem_length {α : Type} {ls : List (List α)} {t : List α}
    (ht : t ∈ cartProd ls) : t.length = ls.length := by
  induction ls generalizing t with
  | nil =>
    simp [cartProd] at ht
    simp [ht]
  | cons l ls ih =>
    simp only [cartProd, List.mem_flatMap, List.mem_map] at ht
    obtain ⟨x, _, t', ht', rfl⟩ := ht
    simp [ih ht']

theorem cartProd_nodup {α : Type} {ls : List (List α)}
    (h : ∀ l ∈ ls, l.Nodup) : (cartProd ls).Nodup := by
  induction ls with
  | nil => simp [cartProd]
  | cons l ls ih =>
    have hl : l.Nodup := h l (by simp)
    have hrest : (cartProd ls).Nodup := ih (fun l' hl' => h l' (by simp [hl']))
    rw [cartProd, List.nodup_flatMap]
    constructor
    · intro x _
      exact hrest.map (fun t t' e => by injection e)
    · refine hl.imp ?_
      intro a b hab
      intro t hta htb
      simp only [List.mem_map] at hta htb
      obtain ⟨u, _, rfl⟩ := hta
      obtain ⟨v, _, he⟩ := htb
      injection he with h1 _
      exact hab h1.symm

/-- The index tuples (position of each chosen value in its value list), in
the same generation order as `cartProd`. -/
def idxTuples {α : Type} (ls : List (List α)) : List (List ℕ) :=
  cartProd (ls.map (fun l => List.range l.length))

/-- Select the values named by an index tuple. -/
def selectIdx (ls : List (List ℚ)) (is : List ℕ) : List ℚ :=
  List.zipWith (fun l i => l.getD i 0) ls is

theorem map_getD_range {α : Type} (l : List α) (d : α) :
    (List.range l.length).map (fun i => l.getD i d) = l := by
  induction l with
  | nil => rfl
  | cons a t ih =>
    have h2 : (List.range t.length).map ((fun i => (a :: t).getD i d) ∘ Nat.succ)
        = t := by simpa [Function.comp_def] using ih
    simp only [List.length_cons, List.range_succ_eq_map, List.map_cons,
      List.map_map, List.getD_cons_zero, h2]

theorem cartProd_eq_map_selectIdx (ls : List (List ℚ)) :
    cartProd ls = (idxTuples ls).map (selectIdx ls) := by
  induction ls with
  | nil => rfl
  | cons l ls ih =>
    show l.flatMap (fun x => (cartProd ls).map (fun t => x :: t)) = _
    conv_lhs => rw [← map_getD_range l (0 : ℚ)]
    rw [List.flatMap_map, ih]
    simp only [idxTuples, List.map_cons, cartProd, List.map_flatMap,
      List.map_map]
    rfl

theorem pairwise_lex_cartProd :
    ∀ (lss : List (List ℕ)), (∀ l ∈ lss, l.Pairwise (· < ·)) →
      (cartProd lss).Pairwise (List.Lex (· < ·)) := by
  intro lss
  induction lss with
  | nil =>
    intro _
    simp [cartProd]
  | cons l lss ih =>
    intro h
    have hl : l.Pairwise (· < ·) := h l (by simp)
    have hrest : (cartProd lss).Pairwise (List.Lex (· < ·)) :=
      ih (fun l' hl' => h l' (by simp [hl']))
    show (l.flatMap (fun x => (cartProd lss).map (fun t => x :: t))).Pairwise _
    clear h ih
    induction l with
    | nil => simp
    | cons x xs ihx =>
      rw [List.flatMap_cons, List.pairwise_append]
      refine ⟨?_, ihx (List.pairwise_cons.mp hl).2, ?_⟩
      · rw [List.pairwise_map]
        exact hrest.imp (fun hab => List.Lex.cons hab)
      · intro a ha b hb
        obtain ⟨t, _, rfl⟩ := List.mem_map.mp ha
        obtain ⟨y, hy, hb'⟩ := List.mem_flatMap.mp hb
        obtain ⟨t', _, rfl⟩ := List.mem_map.mp hb'
        exact List.Lex.rel ((List.pairwise_cons.mp hl).1 y hy)

/-- CLAIM C1 (counterexample).  The claim asserts that the generated
combinations are always pairwise distinct.  With a duplicated value in a
parameter's value list the Cartesian product contains two identical
combinations: the space with the single parameter `P` and value list
`[1, 1]` yields two equal combinations, so the claim as stated is false. -/
theorem c1_distinctness_counterexample :
    generateCombinations [("P", [1, 1])] = [[("P", 1)], [("P", 1)]] ∧
      ¬ (generateCombinations [("P", [1, 1])]).Nodup := by
  constructor
  · rfl
  · decide

/-- CLAIM C1 (amended).  For every ParameterSpace, the Combination Generator
returns exactly the product of the value-list lengths many combinations, each
a total mapping assigning one value to every parameter name (in the order the
names are declared), ordered lexicographically by the tuple of value-list
indices; the combinations are pairwise distinct provided every parameter's
value list is itself duplicate-free (the amendment: with duplicated values,
duplicated combinations appear). -/
theorem c1_cartesian_product (space : ParameterSpace) :
    (generateCombinations space).length = (space.map (fun p => p.2.length)).prod
    ∧ (∀ c ∈ generateCombinations space, c.map Prod.fst = space.map Prod.fst)
    ∧ ((∀ p ∈ space, p.2.Nodup) → (generateCombinations space).Nodup)
    ∧ generateCombinations space =
        (idxTuples (space.map Prod.snd)).map
          (fun is => (space.map Prod.fst).zip (selectIdx (space.map Prod.snd) is))
    ∧ (idxTuples (space.map Prod.snd)).Pairwise (List.Lex (· < ·)) := by
  have hlen : ∀ vs ∈ cartProd (space.map Prod.snd),
      vs.length = (space.map Prod.fst).length := by
    intro vs hvs
    rw [cartProd_mem_length hvs]
    simp
  refine ⟨?_, ?_, ?_, ?_, ?_⟩
  · unfold generateCombinations
    rw [List.length_map, cartProd_length, List.map_map]
    rfl
  · intro c hc
    obtain ⟨vs, hvs, rfl⟩ := List.mem_map.mp hc
    exact List.map_fst_zip _ _ (le_of_eq (hlen vs hvs).symm)
  · intro hnd
    have : (cartProd (space.map Prod.snd)).Nodup := by
      apply cartProd_nodup
      intro l hl
      obtain ⟨p, hp, rfl⟩ := List.mem_map.mp hl
      exact hnd p hp
    apply (List.nodup_map_iff_inj_on this).mpr
    intro vs hvs vs' hvs' he
    have h1 : vs = ((space.map Prod.fst).zip vs).map Prod.snd :=
      (List.map_snd_zip _ _ (le_of_eq (hlen vs hvs))).symm
    have h2 : vs' = ((space.map Prod.fst).zip vs').map Prod.snd :=
      (List.map_snd_zip _ _ (le_of_eq (hlen vs' hvs'))).symm
    rw [h1, h2, he]
  · unfold generateCombinations
    rw [cartProd_eq_map_selectIdx, List.map_map]
    rfl
  · apply pairwise_lex_cartProd
    intro l hl
    obtain ⟨vl, _, rfl⟩ := List.mem_map.mp hl
    exact List.pairwise_lt_range _

/-- Witness for C1 at a concrete duplicate-free space. -/
theorem c1_cartesian_product_witness :
    (generateCombinations [("P", [1, 2]), ("Q", [3])]).Nodup :=
  (c1_cartesian_product [("P", [1, 2]), ("Q", [3])]).2.2.1 (by decide)

/-! ## Filter/Sampler

`COMSOLBatchGenerator._apply_filtering` (batch_generator_fixed.py, lines
108-127) and the cap step of `generate_parameter_combinations` (lines 89-104).
`random.random()` draws become an explicit stream `rand : ℕ → ℚ` consumed one
draw per predicate-matching combination; `random.shuffle` becomes an explicit
`shuffle` function assumed to permute its argument.  Python float literals
`2.4` and `0.5` are idealised as the rationals `12/5` and `1/2`. -/

/-- The `batch_filtering` configuration object.  `excludeCondition` models the
`exclude_condition` entry (read at line 110 but never used afterwards);
`sampleRate` and `targetCount` are `none` when the key is absent. -/
structure FilteringConfig where
  excludeCondition : Combo → Bool
  sampleRate : Option ℚ
  targetCount : Option ℕ

/-- `filtering_config.get('sample_rate', 0.5)` (line 111). -/
def getSampleRate (fc : FilteringConfig) : ℚ := fc.sampleRate.getD (mkRat 1 2)

/-- `filtering_config.get('target_count', 868)` applied to
`config.get('batch_filtering', {})` (lines 90-91): an absent or empty
`batch_filtering` object (modelled as `none`) still yields the default 868. -/
def getTargetCount (ofc : Option FilteringConfig) : ℕ :=
  match ofc with
  | none => 868
  | some fc => fc.targetCount.getD 868

/-- The hard-coded exclusion test
`combo["K_ch"] > 2.4 and combo["W_ch"] > 2.4 and combo["W_rib"] > 9`
(line 118), with Python's left-to-right short-circuit evaluation and
`KeyError` on a missing key (modelled as `none`). -/
def evalExcludePredicate (c : Combo) : Option Bool :=
  match c.lookup "K_ch" with
  | none => none
  | some k =>
    if k ≤ mkRat 12 5 then some false
    else
      match c.lookup "W_ch" with
      | none => none
      | some w =>
        if w ≤ mkRat 12 5 then some false
        else
          match c.lookup "W_rib" with
          | none => none
          | some r => some (decide (9 < r))

/-- The loop of `_apply_filtering` (lines 116-124): a predicate-matching
combination is dropped when the next random draw is below the sample rate,
otherwise kept; a non-matching combination is kept without consuming a draw.
`i` is the index of the next unconsumed draw. -/
def applyFilteringAux (sr : ℚ) (rand : ℕ → ℚ) :
    List Combo → ℕ → Option (List Combo)
  | [], _ => some []
  | c :: cs, i =>
    match evalExcludePredicate c with
    | none => none
    | some true =>
      if rand i < sr then applyFilteringAux sr rand cs (i + 1)
      else
        match applyFilteringAux sr rand cs (i + 1) with
        | none => none
        | some rest => some (c :: rest)
    | some false =>
      match applyFilteringAux sr rand cs i with
      | none => none
      | some rest => some (c :: rest)

/-- `_apply_filtering(combinations, filtering_config)` (lines 108-127): reads
`exclude_condition` and `sample_rate` from the configuration, then runs the
loop from the first random draw. -/
def applyFiltering (fc : FilteringConfig) (rand : ℕ → ℚ)
    (combos : List Combo) : Option (List Combo) :=
  applyFilteringAux (getSampleRate fc) rand combos 0

/-- Lines 93-96: `_apply_filtering` runs only when `batch_filtering` is
present and non-empty. -/
def filterStage (all : List Combo) (ofc : Option FilteringConfig)
    (rand : ℕ → ℚ) : Option (List Combo) :=
  match ofc with
  | none => some all
  | some fc => applyFiltering fc rand all

/-- Lines 98-104: shuffle and truncate whenever the retained list exceeds the
target count. -/
def filterSampleStage (all : List Combo) (ofc : Option FilteringConfig)
    (rand : ℕ → ℚ) (shuffle : List Combo → List Combo) :
    Option (List Combo) :=
  (filterStage all ofc rand).map (fun retained =>
    if getTargetCount ofc < retained.length then
      (shuffle retained).take (getTargetCount ofc)
    else retained)

/-- `generate_parameter_combinations` (lines 73-106) end to end. -/
def generateParameterCombinations (space : ParameterSpace)
    (ofc : Option FilteringConfig) (rand : ℕ → ℚ)
    (shuffle : List Combo → List Combo) : Option (List Combo) :=
  filterSampleStage (generateCombinations space) ofc rand shuffle

theorem applyFilteringAux_cons_false {sr : ℚ} {rand : ℕ → ℚ} {c : Combo}
    {cs : List Combo} {i : ℕ} (h : evalExcludePredicate c = some false) :
    applyFilteringAux sr rand (c :: cs) i =
      (applyFilteringAux sr rand cs i).map (fun rest => c :: rest) := by
  rw [applyFilteringAux, h]
  cases applyFilteringAux sr rand cs i <;> rfl

theorem applyFilteringAux_cons_drop {sr : ℚ} {rand : ℕ → ℚ} {c : Combo}
    {cs : List Combo} {i : ℕ} (h : evalExcludePredicate c = some true)
    (hr : rand i < sr) :
    applyFilteringAux sr rand (c :: cs) i =
      applyFilteringAux sr rand cs (i + 1) := by
  rw [applyFilteringAux, h, if_pos hr]

theorem applyFilteringAux_cons_keep {sr : ℚ} {rand : ℕ → ℚ} {c : Combo}
    {cs : List Combo} {i : ℕ} (h : evalExcludePredicate c = some true)
    (hr : ¬ rand i < sr) :
    applyFilteringAux sr rand (c :: cs) i =
      (applyFilteringAux sr rand cs (i + 1)).map (fun rest => c :: rest) := by
  rw [applyFilteringAux, h, if_neg hr]
  cases applyFilteringAux sr rand cs (i + 1) <;> rfl

theorem applyFilteringAux_count (sr : ℚ) (rand : ℕ → ℚ) :
    ∀ (combos : List Combo) (i : ℕ) (out : List Combo),
      applyFilteringAux sr rand combos i = some out →
      ∀ c : Combo, evalExcludePredicate c = some false →
        out.countP (fun x => decide (x = c)) =
          combos.countP (fun x => decide (x = c)) := by
  intro combos
  induction combos with
  | nil =>
    intro i out hout c _
    rw [applyFilteringAux] at hout
    injection hout with hout
    rw [← hout]
  | cons c' cs ih =>
    intro i out hout c hc
    match he : evalExcludePredicate c' with
    | none =>
      rw [applyFilteringAux, he] at hout
      exact absurd hout (by simp)
    | some true =>
      by_cases hr : rand i < sr
      · rw [applyFilteringAux_cons_drop he hr] at hout
        have hne : ¬ (c' = c) := fun h => by rw [h, hc] at he; cases he
        rw [List.countP_cons, if_neg (by simpa using hne)]
        simpa using ih (i + 1) out hout c hc
      · rw [applyFilteringAux_cons_keep he hr] at hout
        cases hrest : applyFilteringAux sr rand cs (i + 1) with
        | none => rw [hrest] at hout; cases hout
        | some rest =>
          rw [hrest] at hout
          injection hout with hout
          rw [← hout]
          rw [List.countP_cons, List.countP_cons]
          rw [ih (i + 1) rest hrest c hc]
    | some false =>
      rw [applyFilteringAux_cons_false he] at hout
      cases hrest : applyFilteringAux sr rand cs i with
      | none => rw [hrest] at hout; cases hout
      | some rest =>
        rw [hrest] at hout
        injection hout with hout
        rw [← hout]
        rw [List.countP_cons, List.countP_cons]
        rw [ih i rest hrest c hc]

theorem applyFilteringAux_rate_zero (rand : ℕ → ℚ) (h0 : ∀ j, 0 ≤ rand j) :
    ∀ (combos : List Combo), (∀ c ∈ combos, (evalExcludePredicate c).isSome) →
      ∀ i, applyFilteringAux 0 rand combos i = some combos := by
  intro combos
  induction combos with
  | nil => intro _ i; rfl
  | cons c cs ih =>
    intro hs i
    have hcs : ∀ c' ∈ cs, (evalExcludePredicate c').isSome :=
      fun c' h' => hs c' (by simp [h'])
    match he : evalExcludePredicate c with
    | none => exact absurd (hs c (by simp)) (by rw [he]; simp)
    | some true =>
      have hr : ¬ rand i < (0 : ℚ) := not_lt.mpr (h0 i)
      rw [applyFilteringAux_cons_keep he hr, ih hcs (i + 1)]
      rfl
    | some false =>
      rw [applyFilteringAux_cons_false he, ih hcs i]
      rfl

theorem applyFilteringAux_rate_one (rand : ℕ → ℚ) (h1 : ∀ j, rand j < 1) :
    ∀ (combos : List Combo), (∀ c ∈ combos, (evalExcludePredicate c).isSome) →
      ∀ i, applyFilteringAux 1 rand combos i =
        some (combos.filter (fun c => evalExcludePredicate c == some false)) := by
  intro combos
  induction combos with
  | nil => intro _ i; rfl
  | cons c cs ih =>
    intro hs i
    have hcs : ∀ c' ∈ cs, (evalExcludePredicate c').isSome :=
      fun c' h' => hs c' (by simp [h'])
    match he : evalExcludePredicate c with
    | none => exact absurd (hs c (by simp)) (by rw [he]; simp)
    | some true =>
      rw [applyFilteringAux_cons_drop he (h1 i), ih hcs (i + 1)]
      rw [List.filter_cons]
      simp [he]
    | some false =>
      rw [applyFilteringAux_cons_false he, ih hcs i]
      rw [List.filter_cons]
      simp [he]

/-- A combination over the three swept parameters of the end-to-end test
configuration. -/
def cmb (k w r : ℚ) : Combo := [("K_ch", k), ("W_ch", w), ("W_rib", r)]

/-- The end-to-end ParameterSpace of spec section 8. -/
def sweepSpace : ParameterSpace :=
  [("K_ch", [1, 3]), ("W_ch", [1, 3]), ("W_rib", [5, 10])]

/-- The end-to-end filter configuration: `sample_rate = 1.0`,
`target_count = 100` (the `exclude_condition` object is arbitrary since the
code never consults it). -/
def sweepConfig : FilteringConfig := ⟨fun _ => false, some 1, some 100⟩

/-- The seven combinations the end-to-end scenario must retain. -/
def sweepRetained : List Combo :=
  [cmb 1 1 5, cmb 1 1 10, cmb 1 3 5, cmb 1 3 10,
   cmb 3 1 5, cmb 3 1 10, cmb 3 3 5]

/-- A degenerate random stream used by concrete witnesses. -/
def zeroRand : ℕ → ℚ := fun _ => 0

theorem sweepFilterStage (rand : ℕ → ℚ) (h1 : ∀ j, rand j < 1) :
    filterStage (generateCombinations sweepSpace) (some sweepConfig) rand
      = some sweepRetained := by
  have hall : generateCombinations sweepSpace =
      [cmb 1 1 5, cmb 1 1 10, cmb 1 3 5, cmb 1 3 10,
       cmb 3 1 5, cmb 3 1 10, cmb 3 3 5, cmb 3 3 10] := by decide
  show applyFilteringAux (getSampleRate sweepConfig) rand _ 0 = _
  have hsr : getSampleRate sweepConfig = 1 := rfl
  rw [hall, hsr]
  rw [applyFilteringAux_cons_false (by decide)]
  rw [applyFilteringAux_cons_false (by decide)]
  rw [applyFilteringAux_cons_false (by decide)]
  rw [applyFilteringAux_cons_false (by decide)]
  rw [applyFilteringAux_cons_false (by decide)]
  rw [applyFilteringAux_cons_false (by decide)]
  rw [applyFilteringAux_cons_false (by decide)]
  rw [applyFilteringAux_cons_drop (by decide) (h1 0)]
  rfl

/-- CLAIM C3.  The Filter/Sampler returns at most `target_count`
combinations: when the retained set exceeds the target it is permuted (by the
shuffle draw) and truncated to exactly the target, and otherwise every
retained combination is returned. -/
theorem c3_sampler_cap (all : List Combo) (ofc : Option FilteringConfig)
    (rand : ℕ → ℚ) (shuffle : List Combo → List Combo)
    (hshuffle : ∀ l, (shuffle l).Perm l) (out : List Combo)
    (hout : filterSampleStage all ofc rand shuffle = some out) :
    out.length ≤ getTargetCount ofc ∧
    ∃ retained, filterStage all ofc rand = some retained ∧
      (getTargetCount ofc < retained.length →
        out = (shuffle retained).take (getTargetCount ofc) ∧
        out.length = getTargetCount ofc) ∧
      (retained.length ≤ getTargetCount ofc → out = retained) := by
  unfold filterSampleStage at hout
  cases hret : filterStage all ofc rand with
  | none => rw [hret] at hout; cases hout
  | some retained =>
    rw [hret] at hout
    have hout' : (if getTargetCount ofc < retained.length then
        (shuffle retained).take (getTargetCount ofc) else retained) = out := by
      simpa using hout
    have hlen : (shuffle retained).length = retained.length :=
      (hshuffle retained).length_eq
    by_cases hgt : getTargetCount ofc < retained.length
    · rw [if_pos hgt] at hout'
      refine ⟨?_, retained, rfl, fun _ => ⟨hout'.symm, ?_⟩,
        fun hle => absurd hgt (not_lt.mpr hle)⟩
      · rw [← hout', List.length_take, hlen]
        omega
      · rw [← hout', List.length_take, hlen]
        omega
    · rw [if_neg hgt] at hout'
      refine ⟨?_, retained, rfl, fun hgt' => absurd hgt' hgt, fun _ => hout'.symm⟩
      rw [← hout']
      omega

/-- The filter configuration used by the C3 witness: `target_count = 1`. -/
def capConfig : FilteringConfig := ⟨fun _ => false, none, some 1⟩

/-- Witness for C3: two retained combinations, target 1, identity shuffle. -/
theorem c3_sampler_cap_witness :
    ([cmb 1 1 5] : List Combo).length ≤ getTargetCount (some capConfig) :=
  (c3_sampler_cap [cmb 1 1 5, cmb 1 1 10] (some capConfig) zeroRand id
    (fun l => List.Perm.refl l) [cmb 1 1 5] (by decide)).1

/-- CLAIM C4.  Thinning semantics of `_apply_filtering`: combinations on
which the predicate is false are retained unconditionally (their multiplicity
is preserved); with `sample_rate = 0` nothing is dropped; with
`sample_rate = 1` exactly the predicate-matching combinations are dropped;
and on the end-to-end scenario (`sample_rate = 1`, `target_count = 100`) the
combination `(3, 3, 10)` is always excluded and the other seven are always
retained, for every random stream. -/
theorem c4_bernoulli_thinning :
    (∀ (sr : ℚ) (rand : ℕ → ℚ) (combos : List Combo) (i : ℕ)
        (out : List Combo),
      applyFilteringAux sr rand combos i = some out →
      ∀ c : Combo, evalExcludePredicate c = some false →
        out.countP (fun x => decide (x = c)) =
          combos.countP (fun x => decide (x = c)))
    ∧ (∀ (rand : ℕ → ℚ), (∀ j, 0 ≤ rand j) →
        ∀ (combos : List Combo),
          (∀ c ∈ combos, (evalExcludePredicate c).isSome) →
          ∀ i, applyFilteringAux 0 rand combos i = some combos)
    ∧ (∀ (rand : ℕ → ℚ), (∀ j, rand j < 1) →
        ∀ (combos : List Combo),
          (∀ c ∈ combos, (evalExcludePredicate c).isSome) →
          ∀ i, applyFilteringAux 1 rand combos i =
            some (combos.filter (fun c => evalExcludePredicate c == some false)))
    ∧ (∀ (rand : ℕ → ℚ), (∀ j, rand j < 1) →
        ∀ (shuffle : List Combo → List Combo),
          generateParameterCombinations sweepSpace (some sweepConfig)
            rand shuffle = some sweepRetained) := by
  refine ⟨applyFilteringAux_count, applyFilteringAux_rate_zero,
    applyFilteringAux_rate_one, ?_⟩
  intro rand h1 shuffle
  unfold generateParameterCombinations filterSampleStage
  rw [sweepFilterStage rand h1]
  rfl

/-- Witness for C4: the end-to-end scenario with the all-zero random
stream. -/
theorem c4_bernoulli_thinning_witness :
    generateParameterCombinations sweepSpace (some sweepConfig) zeroRand id
      = some sweepRetained :=
  c4_bernoulli_thinning.2.2.2 zeroRand (fun j => by simp [zeroRand]) id

theorem applyFilteringAux_error (sr : ℚ) (rand : ℕ → ℚ) :
    ∀ (combos : List Combo) (i : ℕ) (c : Combo), c ∈ combos →
      evalExcludePredicate c = none →
      applyFilteringAux sr rand combos i = none := by
  intro combos
  induction combos with
  | nil => intro i c hc; cases hc
  | cons c' cs ih =>
    intro i c hc hnone
    rcases List.mem_cons.mp hc with rfl | hmem
    · rw [applyFilteringAux, hnone]
    · match he : evalExcludePredicate c' with
      | none => rw [applyFilteringAux, he]
      | some true =>
        by_cases hr : rand i < sr
        · rw [applyFilteringAux_cons_drop he hr]
          exact ih (i + 1) c hmem hnone
        · rw [applyFilteringAux_cons_keep he hr, ih (i + 1) c hmem hnone]
          rfl
      | some false =>
        rw [applyFilteringAux_cons_false he, ih i c hmem hnone]
        rfl

/-- CLAIM C9 (counterexample).  The claim states that filtering a
combination lacking any of the keys `K_ch`, `W_ch`, `W_rib` fails with a
key-lookup error.  But Python's `and` short-circuits: a combination with
`K_ch = 1` and no other key evaluates `combo["K_ch"] > 2.4` to `False` and
never touches the missing keys, so the combination is retained, not an
error. -/
theorem c9_short_circuit_counterexample :
    evalExcludePredicate [("K_ch", 1)] = some false ∧
      applyFiltering ⟨fun _ => false, some 1, some 100⟩ zeroRand
        [[("K_ch", 1)]] = some [[("K_ch", 1)]] :=
  ⟨by decide, by decide⟩

/-- CLAIM C9 (amended).  The Filter/Sampler's exclusion predicate is the
fixed condition `K_ch > 2.4 and W_ch > 2.4 and W_rib > 9`; the
`exclude_condition` configuration object (and the `target_count` entry) is
never consulted in the decision; a combination lacking `K_ch` always fails
with a key-lookup error, and one lacking `W_ch` or `W_rib` fails exactly when
short-circuit evaluation reaches that key (`K_ch > 2.4`, and for `W_rib` also
`W_ch > 2.4`); otherwise the combination is retained despite missing keys
(retention is stated for both short-circuit exits: `K_ch <= 2.4`, and
`K_ch > 2.4` with `W_ch <= 2.4`, each regardless of the remaining keys);
any key-lookup error aborts the whole filtering pass. -/
theorem c9_fixed_predicate :
    (∀ (ec ec' : Combo → Bool) (sr : Option ℚ) (tc tc' : Option ℕ)
        (rand : ℕ → ℚ) (combos : List Combo),
      applyFiltering ⟨ec, sr, tc⟩ rand combos =
        applyFiltering ⟨ec', sr, tc'⟩ rand combos)
    ∧ (∀ (c : Combo) (k w r : ℚ), c.lookup "K_ch" = some k →
        c.lookup "W_ch" = some w → c.lookup "W_rib" = some r →
        evalExcludePredicate c =
          some (decide (mkRat 12 5 < k ∧ mkRat 12 5 < w ∧ 9 < r)))
    ∧ (∀ c : Combo, c.lookup "K_ch" = none → evalExcludePredicate c = none)
    ∧ (∀ (c : Combo) (k : ℚ), c.lookup "K_ch" = some k → mkRat 12 5 < k →
        c.lookup "W_ch" = none → evalExcludePredicate c = none)
    ∧ (∀ (c : Combo) (k w : ℚ), c.lookup "K_ch" = some k → mkRat 12 5 < k →
        c.lookup "W_ch" = some w → mkRat 12 5 < w →
        c.lookup "W_rib" = none → evalExcludePredicate c = none)
    ∧ (∀ (c : Combo) (k : ℚ), c.lookup "K_ch" = some k → k ≤ mkRat 12 5 →
        evalExcludePredicate c = some false)
    ∧ (∀ (c : Combo) (k w : ℚ), c.lookup "K_ch" = some k → mkRat 12 5 < k →
        c.lookup "W_ch" = some w → w ≤ mkRat 12 5 →
        evalExcludePredicate c = some false)
    ∧ (∀ (fc : FilteringConfig) (rand : ℕ → ℚ) (combos : List Combo)
        (c : Combo), c ∈ combos → evalExcludePredicate c = none →
        applyFiltering fc rand combos = none) := by
  refine ⟨fun _ _ _ _ _ _ _ => rfl, ?_, ?_, ?_, ?_, ?_, ?_,
    fun fc rand combos c hc hnone =>
      applyFilteringAux_error (getSampleRate fc) rand combos 0 c hc hnone⟩
  · intro c k w r hk hw hr
    unfold evalExcludePredicate
    rw [hk, hw, hr]
    dsimp only
    by_cases h1 : k ≤ mkRat 12 5
    · rw [if_pos h1]
      have : decide (mkRat 12 5 < k ∧ mkRat 12 5 < w ∧ 9 < r) = false :=
        decide_eq_false (fun h => absurd h.1 (not_lt.mpr h1))
      rw [this]
    · rw [if_neg h1]
      by_cases h2 : w ≤ mkRat 12 5
      · rw [if_pos h2]
        have : decide (mkRat 12 5 < k ∧ mkRat 12 5 < w ∧ 9 < r) = false :=
          decide_eq_false (fun h => absurd h.2.1 (not_lt.mpr h2))
        rw [this]
      · rw [if_neg h2]
        have he : (mkRat 12 5 < k ∧ mkRat 12 5 < w ∧ 9 < r) ↔ (9 < r) :=
          ⟨fun h => h.2.2, fun h => ⟨not_le.mp h1, not_le.mp h2, h⟩⟩
        rw [decide_eq_decide.mpr he]
  · intro c hc
    unfold evalExcludePredicate
    rw [hc]
  · intro c k hk hlt hw
    unfold evalExcludePredicate
    rw [hk]
    dsimp only
    rw [if_neg (not_le.mpr hlt), hw]
  · intro c k w hk hk' hw hw' hr
    unfold evalExcludePredicate
    rw [hk]
    dsimp only
    rw [if_neg (not_le.mpr hk'), hw]
    dsimp only
    rw [if_neg (not_le.mpr hw'), hr]
  · intro c k hk hle
    unfold evalExcludePredicate
    rw [hk]
    dsimp only
    rw [if_pos hle]
  · intro c k w hk hk' hw hw'
    unfold evalExcludePredicate
    rw [hk]
    dsimp only
    rw [if_neg (not_le.mpr hk'), hw]
    dsimp only
    rw [if_pos hw']

/-- Witness for C9: a combination with an unrelated key aborts filtering. -/
theorem c9_fixed_predicate_witness :
    applyFiltering capConfig zeroRand [[("X", 1)]] = none :=
  c9_fixed_predicate.2.2.2.2.2.2.2 capConfig zeroRand [[("X", 1)]]
    [("X", 1)] (by decide) (by decide)

/-- CLAIM C10.  With `batch_filtering` absent (or the empty object, which is
falsy in Python), no thinning is applied, yet the combination list is still
shuffled and truncated whenever it exceeds the default target count 868; and
when `sample_rate` is omitted the exclusion probability defaults to 1/2. -/
theorem c10_filtering_defaults :
    (∀ (space : ParameterSpace) (rand : ℕ → ℚ)
        (shuffle : List Combo → List Combo),
      generateParameterCombinations space none rand shuffle =
        some (if 868 < (generateCombinations space).length then
          (shuffle (generateCombinations space)).take 868
        else generateCombinations space))
    ∧ (∀ (ec : Combo → Bool) (tc : Option ℕ) (rand : ℕ → ℚ)
        (combos : List Combo),
      applyFiltering ⟨ec, none, tc⟩ rand combos =
        applyFiltering ⟨ec, some (mkRat 1 2), tc⟩ rand combos) :=
  ⟨fun _ _ _ => rfl, fun _ _ _ _ => rfl⟩

/-! ## Mesh Parameter Calculator

`COMSOLBatchGeneratorDemo.calculate_mesh_parameters` (batch_demo.py, lines
99-124). -/

/-- The derived mesh quantities for one combination. -/
structure MeshParams where
  interior : ℚ
  widthMesh : ℚ
  widthCells : ℤ
  depthMesh : ℚ
  depthCells : ℤ

/-- batch_demo.py, lines 99-124: `interior_mesh_size = K_ch / 5`; per axis
dimension `D` (the channel dimension `K_ch` for the stream width, the width
dimension `W_ch` for the stream depth): `cells = D / interior_mesh_size`,
`actual = max(1, round(cells))`, `mesh = D / actual`. -/
def calculateMeshParameters (kCh wCh : ℚ) : MeshParams :=
  let interior := kCh / 5
  let streamWidthCells := kCh / interior
  let actualStreamWidthCells := max 1 (roundHalfEven streamWidthCells)
  let streamWidthMeshSize := kCh / (actualStreamWidthCells : ℚ)
  let streamDepthCells := wCh / interior
  let actualStreamDepthCells := max 1 (roundHalfEven streamDepthCells)
  let streamDepthMeshSize := wCh / (actualStreamDepthCells : ℚ)
  ⟨interior, streamWidthMeshSize, actualStreamWidthCells,
   streamDepthMeshSize, actualStreamDepthCells⟩

theorem mkRat_one_two : (mkRat 1 2 : ℚ) = 1/2 := by
  rw [Rat.mkRat_eq_div]
  norm_num

/-- CLAIM C2.  For positive channel and width dimensions the calculator
produces at least one cell per axis, and `axis_mesh_size * actual_cells`
reproduces the axis dimension exactly (over the exact rationals, hence in
particular within any tolerance); and on the end-to-end scenario
`K_ch = 5/2` the interior mesh size is `1/2`, and the axis dimension
`W_ch = 3` gives 6 cells of size `1/2`. -/
theorem c2_mesh_parameters (K W : ℚ) (hK : 0 < K) (hW : 0 < W) :
    (1 ≤ (calculateMeshParameters K W).widthCells
    ∧ 1 ≤ (calculateMeshParameters K W).depthCells
    ∧ (calculateMeshParameters K W).widthMesh *
        ((calculateMeshParameters K W).widthCells : ℚ) = K
    ∧ (calculateMeshParameters K W).depthMesh *
        ((calculateMeshParameters K W).depthCells : ℚ) = W)
    ∧ ((calculateMeshParameters (5/2) 3).interior = 1/2
    ∧ (calculateMeshParameters (5/2) 3).depthCells = 6
    ∧ (calculateMeshParameters (5/2) 3).depthMesh = 1/2) := by
  constructor
  · have hw1 : (1 : ℤ) ≤ max 1 (roundHalfEven (K / (K / 5))) := le_max_left _ _
    have hd1 : (1 : ℤ) ≤ max 1 (roundHalfEven (W / (K / 5))) := le_max_left _ _
    have hwne : ((max 1 (roundHalfEven (K / (K / 5))) : ℤ) : ℚ) ≠ 0 := by
      exact_mod_cast (by omega : max 1 (roundHalfEven (K / (K / 5))) ≠ 0)
    have hdne : ((max 1 (roundHalfEven (W / (K / 5))) : ℤ) : ℚ) ≠ 0 := by
      exact_mod_cast (by omega : max 1 (roundHalfEven (W / (K / 5))) ≠ 0)
    exact ⟨hw1, hd1, div_mul_cancel₀ K hwne, div_mul_cancel₀ W hdne⟩
  · have h6 : roundHalfEven ((3 : ℚ) / (5/2/5)) = 6 := by
      norm_num [roundHalfEven, mkRat_one_two]
    have hmax : (1 : ℤ) ⊔ 6 = 6 := by decide
    refine ⟨by norm_num [calculateMeshParameters], ?_, ?_⟩
    · show max 1 (roundHalfEven ((3 : ℚ) / (5/2/5))) = 6
      rw [h6, hmax]
    · show (3 : ℚ) / ((max 1 (roundHalfEven ((3 : ℚ) / (5/2/5))) : ℤ) : ℚ) = 1/2
      rw [h6, hmax]
      norm_num

/-- Witness for C2 at the concrete dimensions `K = 3`, `W = 3`. -/
theorem c2_mesh_parameters_witness :
    (calculateMeshParameters 3 3).widthMesh *
      ((calculateMeshParameters 3 3).widthCells : ℚ) = 3 :=
  ((c2_mesh_parameters 3 3 (by decide) (by decide)).1).2.2.1

/-! ## Batch Orchestrator

`COMSOLBatchGenerator.process_single_combination` (batch_generator_fixed.py,
lines 241-297) and `run_batch_generation` (lines 299-352).  The external
Model Engine is abstracted by a per-combination environment saying which of
the engine calls succeed; exceptions become early exits. -/

/-- Per-combination environment: which steps of
`process_single_combination` succeed.  `toleranceContinue` is
`execution_settings.error_tolerance == 'continue'` (line 219). -/
structure ComboEnv where
  templateExists : Bool
  loadOk : Bool
  paramsOk : Bool
  meshOk : Bool
  toleranceContinue : Bool
  saveOk : Bool

/-- Outcome of one combination: the returned success flag, whether a model
handle was acquired (`self.client.load` returned, line 255), and how many
times the `finally` block released it (lines 290-297). -/
structure ComboResult where
  success : Bool
  acquired : Bool
  removeCalls : ℕ

/-- `process_single_combination` (lines 241-297): a missing template returns
`False` before any handle is acquired (lines 247-251); a failing `load`
raises with the handle still unset, so the `finally` block does not release
(lines 253-255, 290-292); after a successful load any failure in parameter
setup, meshing (unless `error_tolerance == 'continue'`, lines 217-222) or
save is caught, returns `False`, and the `finally` block releases the handle
exactly once; on success it also releases exactly once. -/
def processSingleCombination (env : ComboEnv) : ComboResult :=
  if ¬ env.templateExists then ⟨false, false, 0⟩
  else if ¬ env.loadOk then ⟨false, false, 0⟩
  else if ¬ env.paramsOk then ⟨false, true, 1⟩
  else if ¬ env.meshOk ∧ ¬ env.toleranceContinue then ⟨false, true, 1⟩
  else if ¬ env.saveOk then ⟨false, true, 1⟩
  else ⟨true, true, 1⟩

/-- The orchestration loop (lines 316-328): per-combination success and
error counters. -/
def runBatchLoop (envs : List ComboEnv) : ℕ × ℕ :=
  envs.foldl (fun acc env =>
    if (processSingleCombination env).success then (acc.1 + 1, acc.2)
    else (acc.1, acc.2 + 1)) (0, 0)

theorem runBatchLoop_eq_counts (envs : List ComboEnv) :
    runBatchLoop envs =
      (envs.countP (fun e => (processSingleCombination e).success),
       envs.countP (fun e => !(processSingleCombination e).success)) := by
  suffices h : ∀ a b : ℕ,
      envs.foldl (fun acc env =>
        if (processSingleCombination env).success then (acc.1 + 1, acc.2)
        else (acc.1, acc.2 + 1)) (a, b) =
      (a + envs.countP (fun e => (processSingleCombination e).success),
       b + envs.countP (fun e => !(processSingleCombination e).success)) by
    simpa [runBatchLoop] using h 0 0
  induction envs with
  | nil => intro a b; simp
  | cons e es ih =>
    intro a b
    rw [List.foldl_cons, List.countP_cons, List.countP_cons]
    cases hsucc : (processSingleCombination e).success with
    | true => simp [hsucc, ih, Nat.add_assoc, Nat.add_comm]
    | false => simp [hsucc, ih, Nat.add_assoc, Nat.add_comm]

theorem runBatchLoop_total (envs : List ComboEnv) :
    (runBatchLoop envs).1 + (runBatchLoop envs).2 = envs.length := by
  rw [runBatchLoop_eq_counts]
  simpa using (List.length_eq_countP_add_countP
    (fun e => (processSingleCombination e).success) envs).symm

/-- CLAIM C6.  When processing of combination `j` fails, the loop records it
as failed, every other combination's outcome is unaffected (replacing the
environment of combination `j` leaves all other per-combination results
unchanged), the final counters satisfy Succeeded + Failed = N, and the model
handle is released exactly once per combination whenever it was acquired
(and never released when it was never acquired). -/
theorem c6_failure_isolation (envs : List ComboEnv) (j : ℕ) (envj : ComboEnv)
    (hj : envs[j]? = some envj)
    (hfail : (processSingleCombination envj).success = false) :
    ((runBatchLoop envs).1 + (runBatchLoop envs).2 = envs.length)
    ∧ (envs.map (fun e => (processSingleCombination e).success))[j]?
        = some false
    ∧ (∀ (env' : ComboEnv) (i : ℕ), i ≠ j →
        ((envs.set j env').map processSingleCombination)[i]?
          = (envs.map processSingleCombination)[i]?)
    ∧ (∀ env : ComboEnv,
        ((processSingleCombination env).acquired = true →
          (processSingleCombination env).removeCalls = 1)
        ∧ ((processSingleCombination env).acquired = false →
          (processSingleCombination env).removeCalls = 0)) := by
  refine ⟨runBatchLoop_total envs, ?_, ?_, ?_⟩
  · rw [List.getElem?_map, hj]
    simp [hfail]
  · intro env' i hi
    rw [List.getElem?_map, List.getElem?_map,
      List.getElem?_set_ne (fun h => hi h.symm)]
  · intro env
    unfold processSingleCombination
    split_ifs <;> simp

/-- A fault-free environment: every engine call succeeds. -/
def goodEnv : ComboEnv := ⟨true, true, true, true, false, true⟩

/-- An environment whose template file is missing. -/
def badEnv : ComboEnv := ⟨false, true, true, true, false, true⟩

/-- Witness for C6: three combinations with a fault injected on the second. -/
theorem c6_failure_isolation_witness :
    (runBatchLoop [goodEnv, badEnv, goodEnv]).1 +
      (runBatchLoop [goodEnv, badEnv, goodEnv]).2 = 3 :=
  (c6_failure_isolation [goodEnv, badEnv, goodEnv] 1 badEnv rfl
    (by decide)).1

/-- Result of a full `run_batch_generation` run of the fixed generator. -/
structure FixedRunResult where
  startedCount : ℕ
  succ : ℕ
  err : ℕ
  returnedOk : Bool
  disconnected : Bool

/-- `run_batch_generation` (batch_generator_fixed.py, lines 299-352).  An
external interrupt is modelled by `intr = some i`: the signal arrives before
starting combination `i` (0-based) and only fires when `i < envs.length`.
`KeyboardInterrupt` is caught at line 338 and the function returns `False`;
the `finally` block (lines 345-352) disconnects the client on every path on
which it was connected.  A failing output directory or server connection
returns before any combination (lines 304-310) with no client to disconnect
in the first case.  The fixed generator only logs its final summary (lines
330-334); it writes no summary artifact on any path. -/
def runBatchGenerationFixed (dirOk connectOk : Bool) (envs : List ComboEnv)
    (intr : Option ℕ) : FixedRunResult :=
  if ¬ dirOk then ⟨0, 0, 0, false, false⟩
  else if ¬ connectOk then ⟨0, 0, 0, false, false⟩
  else
    match intr with
    | some i =>
      if i < envs.length then
        let sofar := runBatchLoop (envs.take i)
        ⟨i, sofar.1, sofar.2, false, true⟩
      else
        let r := runBatchLoop envs
        ⟨envs.length, r.1, r.2, true, true⟩
    | none =>
      let r := runBatchLoop envs
      ⟨envs.length, r.1, r.2, true, true⟩

/-- Result of a demo run (`COMSOLBatchGeneratorDemo.run_batch_generation`,
batch_demo.py, lines 217-278). -/
structure DemoRunResult where
  processed : ℕ
  summaryWritten : Bool
  summaryTotals : Option (ℕ × ℕ × ℕ)
  interruptEscaped : Bool

/-- The demo orchestrator with per-combination outcomes abstracted as
booleans (`process_single_combination`, batch_demo.py, lines 160-215).
`create_summary_report` (lines 280-305) runs only after the loop completes
(line 248); a `KeyboardInterrupt` is not an `Exception`, so the handler at
line 275 does not catch it and the run aborts with no summary written. -/
def runBatchGenerationDemo (outcomes : List Bool) (intr : Option ℕ) :
    DemoRunResult :=
  match intr with
  | some i =>
    if i < outcomes.length then ⟨i, false, none, true⟩
    else
      ⟨outcomes.length, true,
        some (outcomes.length, outcomes.countP id,
          outcomes.countP (fun b => !b)), false⟩
  | none =>
    ⟨outcomes.length, true,
      some (outcomes.length, outcomes.countP id,
        outcomes.countP (fun b => !b)), false⟩

/-- CLAIM C8 (counterexample).  The claim says an interrupted run persists
the SummaryReport covering the work completed so far.  Interrupting the demo
run before combination 1 (after one completed combination) leaves
`create_summary_report` unreached: no summary is persisted.  (The fixed
generator never writes a summary artifact at all; its handler only logs.) -/
theorem c8_interrupt_counterexample :
    (runBatchGenerationDemo [true, true, true] (some 1)).processed = 1 ∧
      (runBatchGenerationDemo [true, true, true] (some 1)).summaryWritten
        = false := by
  constructor <;> rfl

/-- CLAIM C8 (amended).  An interrupt stops the loop before starting a new
combination and the engine connection is released (the fixed generator's
`finally` block disconnects), and the counters cover exactly the
combinations completed before the signal; but no SummaryReport is persisted:
the demo writes its summary only on uninterrupted completion, and the fixed
generator returns `False` from its `KeyboardInterrupt` handler. -/
theorem c8_interrupt_behaviour (envs : List ComboEnv) (outcomes : List Bool)
    (i : ℕ) (hi : i < envs.length) (ho : i < outcomes.length) :
    ((runBatchGenerationFixed true true envs (some i)).startedCount = i
    ∧ (runBatchGenerationFixed true true envs (some i)).disconnected = true
    ∧ (runBatchGenerationFixed true true envs (some i)).returnedOk = false
    ∧ (runBatchGenerationFixed true true envs (some i)).succ +
        (runBatchGenerationFixed true true envs (some i)).err = i)
    ∧ ((runBatchGenerationDemo outcomes (some i)).processed = i
    ∧ (runBatchGenerationDemo outcomes (some i)).summaryWritten = false) := by
  have hfix : runBatchGenerationFixed true true envs (some i) =
      ⟨i, (runBatchLoop (envs.take i)).1, (runBatchLoop (envs.take i)).2,
        false, true⟩ := by
    unfold runBatchGenerationFixed
    simp [hi]
  have hdemo : runBatchGenerationDemo outcomes (some i) =
      ⟨i, false, none, true⟩ := by
    unfold runBatchGenerationDemo
    simp [ho]
  rw [hfix, hdemo]
  refine ⟨⟨rfl, rfl, rfl, ?_⟩, rfl, rfl⟩
  have := runBatchLoop_total (envs.take i)
  rwa [List.length_take, Nat.min_eq_left (Nat.le_of_lt hi)] at this

/-- Witness for C8: two healthy combinations, interrupt before the second. -/
theorem c8_interrupt_behaviour_witness :
    (runBatchGenerationFixed true true [goodEnv, goodEnv] (some 1)).succ +
      (runBatchGenerationFixed true true [goodEnv, goodEnv] (some 1)).err
        = 1 :=
  ((c8_interrupt_behaviour [goodEnv, goodEnv] [true, true] 1 (by decide)
    (by decide)).1).2.2.2

/-! ## Filename Encoder

`COMSOLBatchGeneratorDemo.generate_filename` (batch_demo.py, lines 126-146):
each value is rendered with Python's `.3e` format when its magnitude is
below 1e-2 or above 1e6 and with `.3f` otherwise; after substitution into the
naming template and appending the extension, every `e+` marker in the
filename is replaced by `e`.  The two Python format specifiers are modelled
on the exact rationals: correctly rounded to three decimals (ties to even),
`.3e` with a sign-prefixed exponent of at least two digits. -/

/-- `a / 10 ^ e` on rationals, written with `mkRat` and natural powers so
that the definition evaluates by kernel reduction (the library's rational
inverse is irreducible). -/
def divPow10 (a : ℚ) (e : ℤ) : ℚ :=
  if 0 ≤ e then mkRat a.num (a.den * 10 ^ e.toNat)
  else a * 10 ^ (-e).toNat

/-- Decides `10 ^ e ≤ a` without rational division. -/
def pow10le (e : ℤ) (a : ℚ) : Bool :=
  if 0 ≤ e then decide ((10 ^ e.toNat : ℚ) ≤ a)
  else decide ((1 : ℚ) ≤ a * 10 ^ (-e).toNat)

/-- The decimal exponent `⌊log10 a⌋` of a positive rational: the unique `e`
with `10 ^ e ≤ a < 10 ^ (e + 1)`.  This is the exponent of Python's `.3e`
rendering before mantissa-overflow carry. -/
def decExp (a : ℚ) : ℤ :=
  let la : ℤ := natLog10 a.num.toNat
  let lb : ℤ := natLog10 a.den
  let e0 := la - lb
  if pow10le e0 a then e0 else e0 - 1

/-- Python `f"{q:.3f}"` on the exact rational: the value times 1000 rounded
half-to-even, rendered with a leading `-` for negative inputs and exactly
three digits after the decimal point. -/
def pyFmtF3 (q : ℚ) : String :=
  ((if q < 0 then ['-'] else []) ++
    natDigits ((roundHalfEven (q * 1000)).natAbs / 1000) ++
    '.' :: pad3 ((roundHalfEven (q * 1000)).natAbs % 1000)).asString

/-- The scientific mantissa scaled to `[1000, 10000]`: the magnitude divided
by `10 ^ exponent` and multiplied by 1000, correctly rounded half to even. -/
def mantissaRaw (q : ℚ) : ℤ := roundHalfEven (divPow10 (|q| * 1000) (decExp |q|))

/-- The rendered mantissa digits `dddd` (as `d.ddd`), after carrying a
mantissa that rounded up to 10.000 back to 1.000. -/
def mantissa3 (q : ℚ) : ℕ :=
  (if mantissaRaw q = 10000 then 1000 else mantissaRaw q).toNat

/-- The rendered decimal exponent, bumped by one when the mantissa carried. -/
def sciExp (q : ℚ) : ℤ :=
  if mantissaRaw q = 10000 then decExp |q| + 1 else decExp |q|

/-- Python `f"{q:.3e}"` on the exact rational: `d.ddd` mantissa correctly
rounded (half to even) to three decimals with carry into the exponent when
the mantissa rounds up to 10, and an `e` marker followed by the exponent's
sign and at least two exponent digits; zero renders as `0.000e+00`. -/
def pyFmtE3 (q : ℚ) : String :=
  if q = 0 then "0.000e+00"
  else
    ((if q < 0 then ['-'] else []) ++
      digitCh (mantissa3 q / 1000) :: '.' :: pad3 (mantissa3 q % 1000) ++
      'e' :: (if sciExp q < 0 then '-' else '+') ::
        (if (sciExp q).natAbs < 10 then '0' :: natDigits (sciExp q).natAbs
         else natDigits (sciExp q).natAbs)).asString

/-- batch_demo.py, lines 134-138: scientific format for magnitudes below
1e-2 or above 1e6, fixed-point otherwise. -/
def formatValue (q : ℚ) : String :=
  if |q| < mkRat 1 100 ∨ (1000000 : ℚ) < |q| then pyFmtE3 q else pyFmtF3 q

/-- `str.replace("e+", "e")`: replace every (non-overlapping, left to right)
occurrence of `e+` by `e`. -/
def replEP : List Char → List Char
  | [] => []
  | [c] => [c]
  | c :: c' :: cs =>
    if c = 'e' ∧ c' = '+' then 'e' :: replEP cs
    else c :: replEP (c' :: cs)

/-- batch_demo.py, line 144, on a whole string. -/
def replaceEPlus (s : String) : String := (replEP s.data).asString

/-- One substituted value as it appears in the final filename: formatted,
then subjected to the filename-level `e+` → `e` replacement. -/
def procValue (q : ℚ) : String := replaceEPlus (formatValue q)

theorem pow10le_iff (e : ℤ) (a : ℚ) : pow10le e a = true ↔ (10:ℚ) ^ e ≤ a := by
  unfold pow10le
  split
  · rename_i h0
    rw [decide_eq_true_eq]
    rw [show ((10:ℚ) ^ e.toNat) = (10:ℚ) ^ e by
      rw [← zpow_natCast, Int.toNat_of_nonneg h0]]
  · rename_i h0
    rw [decide_eq_true_eq]
    have hpow : ((10:ℚ) ^ (-e).toNat) = (10:ℚ) ^ (-e) := by
      rw [← zpow_natCast, Int.toNat_of_nonneg (by omega)]
    rw [hpow, zpow_neg, ← div_eq_mul_inv]
    exact one_le_div (zpow_pos (by norm_num) e)

theorem decExp_spec (a : ℚ) (ha : 0 < a) :
    (10:ℚ) ^ decExp a ≤ a ∧ a < (10:ℚ) ^ (decExp a + 1) := by
  have hnumpos : 0 < a.num := Rat.num_pos.mpr ha
  have hnum1 : 1 ≤ a.num.toNat := by omega
  have hden1 : 1 ≤ a.den := a.den_pos
  obtain ⟨hn1, hn2⟩ := natLog10_bounds a.num.toNat hnum1
  obtain ⟨hd1, hd2⟩ := natLog10_bounds a.den hden1
  have hcastnum : ((a.num.toNat : ℕ) : ℚ) = (a.num : ℚ) := by
    rw [show ((a.num.toNat : ℕ) : ℚ) = ((a.num.toNat : ℤ) : ℚ) by push_cast; ring,
      Int.toNat_of_nonneg (le_of_lt hnumpos)]
  have hnumQpos : (0:ℚ) < (a.num : ℚ) := by exact_mod_cast hnumpos
  have hdenQpos : (0:ℚ) < (a.den : ℚ) := by exact_mod_cast hden1
  have hzpow : ∀ k : ℕ, (10:ℚ) ^ (k : ℤ) = ((10 ^ k : ℕ) : ℚ) := by
    intro k
    rw [zpow_natCast]
    push_cast
    ring
  have hlower : (10:ℚ) ^ ((natLog10 a.num.toNat : ℤ) - natLog10 a.den - 1) ≤ a := by
    have he : ((natLog10 a.num.toNat : ℤ) - natLog10 a.den - 1)
        = (natLog10 a.num.toNat : ℤ) - ((natLog10 a.den + 1 : ℕ) : ℤ) := by
      push_cast
      ring
    have hq : (10:ℚ) ^ ((natLog10 a.num.toNat : ℤ) - natLog10 a.den - 1)
        ≤ (a.num : ℚ) / (a.den : ℚ) := by
      rw [he, zpow_sub₀ (by norm_num : (10:ℚ) ≠ 0)]
      rw [div_le_div_iff (by positivity) hdenQpos]
      rw [hzpow, hzpow, ← hcastnum]
      have : (10 ^ natLog10 a.num.toNat : ℕ) * a.den
          ≤ a.num.toNat * 10 ^ (natLog10 a.den + 1) :=
        Nat.mul_le_mul hn1 (Nat.le_of_lt hd2)
      exact_mod_cast this
    rwa [Rat.num_div_den a] at hq
  have hupper : a < (10:ℚ) ^ ((natLog10 a.num.toNat : ℤ) - natLog10 a.den + 1) := by
    have he : ((natLog10 a.num.toNat : ℤ) - natLog10 a.den + 1)
        = ((natLog10 a.num.toNat + 1 : ℕ) : ℤ) - ((natLog10 a.den : ℕ) : ℤ) := by
      push_cast
      ring
    have hq : (a.num : ℚ) / (a.den : ℚ)
        < (10:ℚ) ^ ((natLog10 a.num.toNat : ℤ) - natLog10 a.den + 1) := by
      rw [he, zpow_sub₀ (by norm_num : (10:ℚ) ≠ 0)]
      rw [div_lt_div_iff hdenQpos (by positivity)]
      rw [hzpow, hzpow, ← hcastnum]
      have : a.num.toNat * 10 ^ natLog10 a.den
          < 10 ^ (natLog10 a.num.toNat + 1) * a.den := by
        calc a.num.toNat * 10 ^ natLog10 a.den
            < 10 ^ (natLog10 a.num.toNat + 1) * 10 ^ natLog10 a.den :=
              mul_lt_mul_of_pos_right hn2 (Nat.pos_pow_of_pos _ (by norm_num))
          _ ≤ 10 ^ (natLog10 a.num.toNat + 1) * a.den :=
              Nat.mul_le_mul_left _ hd1
      exact_mod_cast this
    rwa [Rat.num_div_den a] at hq
  unfold decExp
  dsimp only
  split
  · rename_i hb
    exact ⟨(pow10le_iff _ a).mp hb, hupper⟩
  · rename_i hb
    refine ⟨hlower, ?_⟩
    rw [sub_add_cancel]
    exact not_le.mp (fun hc => hb ((pow10le_iff _ a).mpr hc))

/-! ### Shape of the rendered strings

Decidable checkers for the two spec formats: `fixedShape` accepts an
optional minus sign, at least one integer digit, a decimal point and exactly
three fractional digits; `sciShape` accepts an optional minus sign, one
mantissa digit, a point, exactly three mantissa decimals, the `e` marker and
an exponent of an optional minus sign (never a plus) and at least two
digits. -/

/-- Exactly three decimal digit characters. -/
def threeDigits : List Char → Bool
  | [x, y, z] => isDigitCh x && isDigitCh y && isDigitCh z
  | _ => false

/-- Zero or more digits, then a point and exactly three digits. -/
def afterIntPart : List Char → Bool
  | [] => false
  | c :: rest => if c = '.' then threeDigits rest
    else isDigitCh c && afterIntPart rest

/-- At least one integer digit, then a point and three digits. -/
def fixedShapeCore : List Char → Bool
  | [] => false
  | c :: rest => isDigitCh c && afterIntPart rest

/-- The fixed-point format with an optional leading minus. -/
def fixedShape : List Char → Bool
  | [] => false
  | c :: rest => if c = '-' then fixedShapeCore rest
    else fixedShapeCore (c :: rest)

/-- Two or more digit characters. -/
def twoPlusDigits : List Char → Bool
  | x :: y :: rest => isDigitCh x && isDigitCh y && rest.all isDigitCh
  | _ => false

/-- The exponent after `e`: an optional minus (never a plus) and at least
two digits. -/
def expPart : List Char → Bool
  | [] => false
  | c :: rest => if c = '-' then twoPlusDigits rest
    else twoPlusDigits (c :: rest)

/-- Mantissa digit, point, three decimals, `e`, exponent. -/
def sciCore : List Char → Bool
  | d0 :: p :: x :: y :: z :: e :: rest =>
    isDigitCh d0 && (p == '.') && isDigitCh x && isDigitCh y && isDigitCh z
      && (e == 'e') && expPart rest
  | _ => false

/-- The scientific format with an optional leading minus. -/
def sciShape : List Char → Bool
  | [] => false
  | c :: rest => if c = '-' then sciCore rest else sciCore (c :: rest)

/-- `sciShape` on a string. -/
def sciShapeStr (s : String) : Bool := sciShape s.data

/-- `fixedShape` on a string. -/
def fixedShapeStr (s : String) : Bool := fixedShape s.data

theorem isDigitCh_ne {c d : Char} (h : isDigitCh c = true)
    (hd : isDigitCh d = false) : c ≠ d := by
  intro he
  rw [he, hd] at h
  cases h

theorem replEP_no_plus : ∀ (l : List Char), '+' ∉ l → replEP l = l := by
  intro l
  induction l with
  | nil => intro _; rfl
  | cons c t ih =>
    intro h
    cases t with
    | nil => rfl
    | cons c' cs =>
      rw [replEP, if_neg (fun hc => h (by simp [hc.2]))]
      congr 1
      exact ih (fun hm => h (List.mem_cons_of_mem c hm))

theorem replEP_cons_cons (c c' : Char) (cs : List Char) :
    replEP (c :: c' :: cs) =
      if c = 'e' ∧ c' = '+' then 'e' :: replEP cs
      else c :: replEP (c' :: cs) := rfl

theorem replEP_append_aux (l₂ : List Char) (h2 : l₂.head? ≠ some '+') :
    ∀ (n : ℕ) (l₁ : List Char), l₁.length ≤ n →
      replEP (l₁ ++ l₂) = replEP l₁ ++ replEP l₂ := by
  intro n
  induction n with
  | zero =>
    intro l₁ hlen
    have h0 : l₁ = [] := List.length_eq_zero.mp (by omega)
    rw [h0, List.nil_append]
    rfl
  | succ n ih =>
    intro l₁ hlen
    match l₁ with
    | [] => rfl
    | [c] =>
      cases hl2 : l₂ with
      | nil => simp [replEP]
      | cons c₂ t₂ =>
        subst hl2
        show replEP (c :: c₂ :: t₂) = replEP [c] ++ replEP (c₂ :: t₂)
        rw [replEP_cons_cons, if_neg (fun hc => h2 (by simp [hc.2]))]
        rfl
    | c :: c' :: cs =>
      show replEP (c :: c' :: (cs ++ l₂)) = _
      rw [show c :: c' :: (cs ++ l₂) = c :: ((c' :: cs) ++ l₂) from rfl]
      rw [show ((c' :: cs) ++ l₂) = c' :: (cs ++ l₂) from rfl]
      rw [replEP_cons_cons]
      by_cases hc : c = 'e' ∧ c' = '+'
      · rw [if_pos hc, ih cs (by simp at hlen; omega)]
        rw [replEP_cons_cons, if_pos hc]
        rfl
      · rw [if_neg hc]
        rw [show c' :: (cs ++ l₂) = (c' :: cs) ++ l₂ from rfl]
        rw [ih (c' :: cs) (by simp at hlen ⊢; omega)]
        conv_rhs => rw [replEP_cons_cons, if_neg hc]
        rfl

theorem replEP_append (l₁ l₂ : List Char) (h2 : l₂.head? ≠ some '+') :
    replEP (l₁ ++ l₂) = replEP l₁ ++ replEP l₂ :=
  replEP_append_aux l₂ h2 l₁.length l₁ (Nat.le_refl _)

theorem replEP_ep (l : List Char) : replEP ('e' :: '+' :: l) = 'e' :: replEP l := by
  rw [replEP, if_pos ⟨rfl, rfl⟩]

theorem replEP_subset : ∀ (n : ℕ) (l : List Char), l.length ≤ n →
    ∀ c ∈ replEP l, c ∈ l := by
  intro n
  induction n with
  | zero =>
    intro l hlen
    have h0 : l = [] := List.length_eq_zero.mp (by omega)
    rw [h0]
    intro c hc
    cases hc
  | succ n ih =>
    intro l hlen c hc
    match l with
    | [] => cases hc
    | [c'] =>
      rw [show replEP [c'] = [c'] from rfl] at hc
      exact hc
    | a :: a' :: t =>
      rw [replEP_cons_cons] at hc
      split at hc
      · rename_i ha
        rcases List.mem_cons.mp hc with rfl | hmem
        · simp [ha.1]
        · simp at hlen
          have := ih t (by omega) c hmem
          simp [this]
      · rcases List.mem_cons.mp hc with rfl | hmem
        · simp
        · simp at hlen
          have := ih (a' :: t) (by simp; omega) c hmem
          simp at this
          rcases this with h | h <;> simp [h]

theorem pyFmtF3_data (q : ℚ) :
    (pyFmtF3 q).data =
      (if q < 0 then ['-'] else []) ++
      (natDigits ((roundHalfEven (q * 1000)).natAbs / 1000) ++
        '.' :: pad3 ((roundHalfEven (q * 1000)).natAbs % 1000)) := by
  show ((if q < 0 then ['-'] else []) ++
      natDigits ((roundHalfEven (q * 1000)).natAbs / 1000) ++
      '.' :: pad3 ((roundHalfEven (q * 1000)).natAbs % 1000)) = _
  rw [List.append_assoc]

theorem pyFmtE3_data (q : ℚ) (hq : ¬ q = 0) :
    (pyFmtE3 q).data =
      (if q < 0 then ['-'] else []) ++
      digitCh (mantissa3 q / 1000) :: '.' ::
        (pad3 (mantissa3 q % 1000) ++
          'e' :: (if sciExp q < 0 then '-' else '+') ::
            (if (sciExp q).natAbs < 10 then '0' :: natDigits (sciExp q).natAbs
             else natDigits (sciExp q).natAbs)) := by
  unfold pyFmtE3
  rw [if_neg hq]
  show ((if q < 0 then ['-'] else []) ++
      digitCh (mantissa3 q / 1000) :: '.' :: pad3 (mantissa3 q % 1000) ++
      'e' :: (if sciExp q < 0 then '-' else '+') ::
        (if (sciExp q).natAbs < 10 then '0' :: natDigits (sciExp q).natAbs
         else natDigits (sciExp q).natAbs)) = _
  simp [List.append_assoc]

theorem not_mem_of_all_digits {l : List Char} (h : ∀ c ∈ l, isDigitCh c = true)
    {d : Char} (hd : isDigitCh d = false) : d ∉ l := by
  intro hm
  rw [h d hm] at hd
  cases hd

theorem natDigits_lt_ten (n : ℕ) (h : n < 10) : natDigits n = [digitCh n] := by
  unfold natDigits natDigitsAux
  rw [if_pos h]

theorem expDigits_len (m : ℕ) :
    2 ≤ (if m < 10 then '0' :: natDigits m else natDigits m).length := by
  split
  · rename_i h
    rw [natDigits_lt_ten m h]
    simp
  · rename_i h
    exact natDigits_two_le_length m (by omega)

theorem expDigits_all (m : ℕ) :
    ∀ c ∈ (if m < 10 then '0' :: natDigits m else natDigits m),
      isDigitCh c = true := by
  split
  · rename_i h
    intro c hc
    rcases List.mem_cons.mp hc with rfl | hc'
    · decide
    · exact natDigits_all_digit m c hc'
  · intro c hc
    exact natDigits_all_digit m c hc

theorem twoPlusDigits_of (l : List Char) (hlen : 2 ≤ l.length)
    (hd : ∀ c ∈ l, isDigitCh c = true) : twoPlusDigits l = true := by
  match l with
  | [] => simp at hlen
  | [x] => simp at hlen
  | x :: y :: rest =>
    show (isDigitCh x && isDigitCh y && rest.all isDigitCh) = true
    rw [hd x (by simp), hd y (by simp)]
    simp only [List.all_eq_true, Bool.and_eq_true, Bool.true_and]
    intro c hc
    exact hd c (by simp [hc])

theorem expPart_of_digits (l : List Char) (hlen : 2 ≤ l.length)
    (hd : ∀ c ∈ l, isDigitCh c = true) : expPart l = true := by
  match l with
  | [] => simp at hlen
  | x :: rest =>
    show (if x = '-' then twoPlusDigits rest else twoPlusDigits (x :: rest)) = true
    rw [if_neg (isDigitCh_ne (hd x (by simp)) (by decide))]
    exact twoPlusDigits_of _ hlen hd

theorem expPart_neg_digits (l : List Char) (hlen : 2 ≤ l.length)
    (hd : ∀ c ∈ l, isDigitCh c = true) : expPart ('-' :: l) = true := by
  show (if '-' = '-' then twoPlusDigits l else twoPlusDigits ('-' :: l)) = true
  rw [if_pos rfl]
  exact twoPlusDigits_of _ hlen hd

theorem afterIntPart_digits (ds : List Char)
    (hds : ∀ c ∈ ds, isDigitCh c = true) {x y z : Char}
    (hx : isDigitCh x = true) (hy : isDigitCh y = true)
    (hz : isDigitCh z = true) :
    afterIntPart (ds ++ '.' :: [x, y, z]) = true := by
  induction ds with
  | nil =>
    show (if '.' = '.' then threeDigits [x, y, z]
      else isDigitCh '.' && afterIntPart [x, y, z]) = true
    rw [if_pos rfl]
    show (isDigitCh x && isDigitCh y && isDigitCh z) = true
    rw [hx, hy, hz]
    rfl
  | cons d t ih =>
    show (if d = '.' then threeDigits (t ++ '.' :: [x, y, z])
      else isDigitCh d && afterIntPart (t ++ '.' :: [x, y, z])) = true
    rw [if_neg (isDigitCh_ne (hds d (by simp)) (by decide))]
    rw [hds d (by simp), ih (fun c hc => hds c (by simp [hc]))]
    rfl

theorem fixedShape_build (s1 : List Char) (hs1 : s1 = [] ∨ s1 = ['-'])
    (nd : List Char) (hnd : nd ≠ []) (hd : ∀ c ∈ nd, isDigitCh c = true)
    {x y z : Char} (hx : isDigitCh x = true) (hy : isDigitCh y = true)
    (hz : isDigitCh z = true) :
    fixedShape (s1 ++ (nd ++ '.' :: [x, y, z])) = true := by
  obtain ⟨d, ds, rfl⟩ := List.exists_cons_of_ne_nil hnd
  have hcore : fixedShapeCore (d :: (ds ++ '.' :: [x, y, z])) = true := by
    show (isDigitCh d && afterIntPart (ds ++ '.' :: [x, y, z])) = true
    rw [hd d (by simp), afterIntPart_digits ds (fun c hc => hd c (by simp [hc])) hx hy hz]
    rfl
  rcases hs1 with rfl | rfl
  · show fixedShape (d :: (ds ++ '.' :: [x, y, z])) = true
    show (if d = '-' then fixedShapeCore (ds ++ '.' :: [x, y, z])
      else fixedShapeCore (d :: (ds ++ '.' :: [x, y, z]))) = true
    rw [if_neg (isDigitCh_ne (hd d (by simp)) (by decide))]
    exact hcore
  · show fixedShape ('-' :: (d :: ds ++ '.' :: [x, y, z])) = true
    show (if '-' = '-' then fixedShapeCore (d :: ds ++ '.' :: [x, y, z])
      else fixedShapeCore ('-' :: (d :: ds ++ '.' :: [x, y, z]))) = true
    rw [if_pos rfl]
    exact hcore

theorem sciShape_build (s1 : List Char) (hs1 : s1 = [] ∨ s1 = ['-'])
    {d : Char} (hd : isDigitCh d = true)
    {x y z : Char} (hx : isDigitCh x = true) (hy : isDigitCh y = true)
    (hz : isDigitCh z = true)
    (tail : List Char) (htail : expPart tail = true) :
    sciShape (s1 ++ d :: '.' :: ([x, y, z] ++ 'e' :: tail)) = true := by
  have hcore : sciCore (d :: '.' :: x :: y :: z :: 'e' :: tail) = true := by
    show (isDigitCh d && ('.' == '.') && isDigitCh x && isDigitCh y && isDigitCh z
      && ('e' == 'e') && expPart tail) = true
    rw [hd, hx, hy, hz, htail]
    rfl
  rcases hs1 with rfl | rfl
  · show sciShape (d :: '.' :: x :: y :: z :: 'e' :: tail) = true
    show (if d = '-' then sciCore ('.' :: x :: y :: z :: 'e' :: tail)
      else sciCore (d :: '.' :: x :: y :: z :: 'e' :: tail)) = true
    rw [if_neg (isDigitCh_ne hd (by decide))]
    exact hcore
  · show sciShape ('-' :: (d :: '.' :: x :: y :: z :: 'e' :: tail)) = true
    show (if '-' = '-' then sciCore (d :: '.' :: x :: y :: z :: 'e' :: tail)
      else sciCore ('-' :: (d :: '.' :: x :: y :: z :: 'e' :: tail))) = true
    rw [if_pos rfl]
    exact hcore

theorem plus_not_mem_sci (s1 : List Char) (h1 : '+' ∉ s1) {d : Char}
    (hd : d ≠ '+') (p3 : List Char) (hp3 : '+' ∉ p3) (tail : List Char)
    (htail : '+' ∉ tail) :
    '+' ∉ s1 ++ d :: '.' :: (p3 ++ 'e' :: tail) := by
  intro hm
  rcases List.mem_append.mp hm with h | h
  · exact h1 h
  · rcases List.mem_cons.mp h with h' | h'
    · exact hd h'.symm
    · rcases List.mem_cons.mp h' with h'' | h''
      · exact absurd h'' (by decide)
      · rcases List.mem_append.mp h'' with h3 | h3
        · exact hp3 h3
        · rcases List.mem_cons.mp h3 with h4 | h4
          · exact absurd h4 (by decide)
          · exact htail h4

theorem replEP_sci_pos (s1 : List Char) (h1 : '+' ∉ s1) {d : Char}
    (hd : d ≠ '+') (p3 : List Char) (hp3 : '+' ∉ p3) (eds : List Char)
    (heds : '+' ∉ eds) :
    replEP (s1 ++ d :: '.' :: (p3 ++ 'e' :: '+' :: eds))
      = s1 ++ d :: '.' :: (p3 ++ 'e' :: eds) := by
  have hsplit : s1 ++ d :: '.' :: (p3 ++ 'e' :: '+' :: eds)
      = (s1 ++ d :: '.' :: p3) ++ ('e' :: '+' :: eds) := by
    simp [List.append_assoc]
  have hpre : '+' ∉ s1 ++ d :: '.' :: p3 := by
    intro hm
    rcases List.mem_append.mp hm with h | h
    · exact h1 h
    · rcases List.mem_cons.mp h with h' | h'
      · exact hd h'.symm
      · rcases List.mem_cons.mp h' with h'' | h''
        · exact absurd h'' (by decide)
        · exact hp3 h''
  rw [hsplit, replEP_append _ _ (by simp), replEP_no_plus _ hpre, replEP_ep,
    replEP_no_plus _ heds]
  simp [List.append_assoc]

theorem sciShape_replaceEPlus_pyFmtE3 (q : ℚ) :
    sciShape (replEP (pyFmtE3 q).data) = true := by
  by_cases hq : q = 0
  · subst hq
    decide
  · rw [pyFmtE3_data q hq]
    have hs1 : (if q < 0 then ['-'] else ([] : List Char)) = []
        ∨ (if q < 0 then ['-'] else ([] : List Char)) = ['-'] := by
      split
      · exact Or.inr rfl
      · exact Or.inl rfl
    have hs1p : '+' ∉ (if q < 0 then ['-'] else ([] : List Char)) := by
      split <;> decide
    have hedsl := expDigits_len (sciExp q).natAbs
    have hedsd := expDigits_all (sciExp q).natAbs
    have hedsp : '+' ∉ (if (sciExp q).natAbs < 10
        then '0' :: natDigits (sciExp q).natAbs
        else natDigits (sciExp q).natAbs) :=
      not_mem_of_all_digits hedsd (by decide)
    have hp3 : '+' ∉ pad3 (mantissa3 q % 1000) :=
      not_mem_of_all_digits (pad3_all_digit _) (by decide)
    have hdch : digitCh (mantissa3 q / 1000) ≠ '+' :=
      isDigitCh_ne (isDigitCh_digitCh _) (by decide)
    by_cases he : sciExp q < 0
    · rw [if_pos he]
      rw [replEP_no_plus _ (plus_not_mem_sci _ hs1p hdch _ hp3 _
        (fun hm => by
          rcases List.mem_cons.mp hm with h | h
          · exact absurd h (by decide)
          · exact hedsp h))]
      exact sciShape_build _ hs1 (isDigitCh_digitCh _)
        (isDigitCh_digitCh _) (isDigitCh_digitCh _) (isDigitCh_digitCh _)
        _ (expPart_neg_digits _ hedsl hedsd)
    · rw [if_neg he]
      rw [replEP_sci_pos _ hs1p hdch _ hp3 _ hedsp]
      exact sciShape_build _ hs1 (isDigitCh_digitCh _)
        (isDigitCh_digitCh _) (isDigitCh_digitCh _) (isDigitCh_digitCh _)
        _ (expPart_of_digits _ hedsl hedsd)

theorem fixedShape_replaceEPlus_pyFmtF3 (q : ℚ) :
    fixedShape (replEP (pyFmtF3 q).data) = true := by
  rw [pyFmtF3_data]
  have hs1 : (if q < 0 then ['-'] else ([] : List Char)) = []
      ∨ (if q < 0 then ['-'] else ([] : List Char)) = ['-'] := by
    split
    · exact Or.inr rfl
    · exact Or.inl rfl
  have hs1p : '+' ∉ (if q < 0 then ['-'] else ([] : List Char)) := by
    split <;> decide
  have hnop : '+' ∉ (if q < 0 then ['-'] else ([] : List Char)) ++
      (natDigits ((roundHalfEven (q * 1000)).natAbs / 1000) ++
        '.' :: pad3 ((roundHalfEven (q * 1000)).natAbs % 1000)) := by
    intro hm
    rcases List.mem_append.mp hm with h | h
    · exact hs1p h
    · rcases List.mem_append.mp h with h' | h'
      · exact not_mem_of_all_digits (natDigits_all_digit _) (by decide) h'
      · rcases List.mem_cons.mp h' with h'' | h''
        · exact absurd h'' (by decide)
        · exact not_mem_of_all_digits (pad3_all_digit _) (by decide) h''
  rw [replEP_no_plus _ hnop]
  exact fixedShape_build _ hs1 _ (natDigits_ne_nil _) (natDigits_all_digit _)
    (isDigitCh_digitCh _) (isDigitCh_digitCh _) (isDigitCh_digitCh _)

theorem sciExp_neg_of_small (q : ℚ) (hq : q ≠ 0) (hsmall : |q| < mkRat 1 100) :
    sciExp q < 0 := by
  have ha : 0 < |q| := abs_pos.mpr hq
  obtain ⟨h1, _⟩ := decExp_spec |q| ha
  have hlt : (10:ℚ) ^ decExp |q| < (10:ℚ) ^ (-2 : ℤ) := by
    calc (10:ℚ) ^ decExp |q| ≤ |q| := h1
      _ < mkRat 1 100 := hsmall
      _ = (10:ℚ) ^ (-2:ℤ) := by rw [Rat.mkRat_eq_div]; norm_num
  have hexp : decExp |q| < -2 := (zpow_lt_zpow_iff_right₀ (by norm_num)).mp hlt
  unfold sciExp
  split <;> omega

theorem plus_not_mem_pyFmtF3_repl (q : ℚ) : '+' ∉ replEP (pyFmtF3 q).data := by
  rw [pyFmtF3_data]
  have hs1p : '+' ∉ (if q < 0 then ['-'] else ([] : List Char)) := by
    split <;> decide
  have hnop : '+' ∉ (if q < 0 then ['-'] else ([] : List Char)) ++
      (natDigits ((roundHalfEven (q * 1000)).natAbs / 1000) ++
        '.' :: pad3 ((roundHalfEven (q * 1000)).natAbs % 1000)) := by
    intro hm
    rcases List.mem_append.mp hm with h | h
    · exact hs1p h
    · rcases List.mem_append.mp h with h' | h'
      · exact not_mem_of_all_digits (natDigits_all_digit _) (by decide) h'
      · rcases List.mem_cons.mp h' with h'' | h''
        · exact absurd h'' (by decide)
        · exact not_mem_of_all_digits (pad3_all_digit _) (by decide) h''
  rw [replEP_no_plus _ hnop]
  exact hnop

theorem plus_not_mem_pyFmtE3_repl (q : ℚ) : '+' ∉ replEP (pyFmtE3 q).data := by
  by_cases hq : q = 0
  · subst hq
    decide
  · rw [pyFmtE3_data q hq]
    have hs1p : '+' ∉ (if q < 0 then ['-'] else ([] : List Char)) := by
      split <;> decide
    have hedsd := expDigits_all (sciExp q).natAbs
    have hedsp : '+' ∉ (if (sciExp q).natAbs < 10
        then '0' :: natDigits (sciExp q).natAbs
        else natDigits (sciExp q).natAbs) :=
      not_mem_of_all_digits hedsd (by decide)
    have hp3 : '+' ∉ pad3 (mantissa3 q % 1000) :=
      not_mem_of_all_digits (pad3_all_digit _) (by decide)
    have hdch : digitCh (mantissa3 q / 1000) ≠ '+' :=
      isDigitCh_ne (isDigitCh_digitCh _) (by decide)
    by_cases he : sciExp q < 0
    · rw [if_pos he]
      have hnop := plus_not_mem_sci _ hs1p hdch (pad3 (mantissa3 q % 1000)) hp3
        ('-' :: (if (sciExp q).natAbs < 10 then '0' :: natDigits (sciExp q).natAbs
          else natDigits (sciExp q).natAbs))
        (fun hm => by
          rcases List.mem_cons.mp hm with h | h
          · exact absurd h (by decide)
          · exact hedsp h)
      rw [replEP_no_plus _ hnop]
      exact hnop
    · rw [if_neg he]
      rw [replEP_sci_pos _ hs1p hdch _ hp3 _ hedsp]
      exact plus_not_mem_sci _ hs1p hdch _ hp3 _ hedsp

theorem eMinus_infix_pyFmtE3 (q : ℚ) (hq : q ≠ 0) (he : sciExp q < 0) :
    ['e', '-'] <:+: replEP (pyFmtE3 q).data := by
  rw [pyFmtE3_data q hq, if_pos he]
  have hs1p : '+' ∉ (if q < 0 then ['-'] else ([] : List Char)) := by
    split <;> decide
  have hedsd := expDigits_all (sciExp q).natAbs
  have hedsp : '+' ∉ (if (sciExp q).natAbs < 10
      then '0' :: natDigits (sciExp q).natAbs
      else natDigits (sciExp q).natAbs) :=
    not_mem_of_all_digits hedsd (by decide)
  have hp3 : '+' ∉ pad3 (mantissa3 q % 1000) :=
    not_mem_of_all_digits (pad3_all_digit _) (by decide)
  have hdch : digitCh (mantissa3 q / 1000) ≠ '+' :=
    isDigitCh_ne (isDigitCh_digitCh _) (by decide)
  have hnop := plus_not_mem_sci _ hs1p hdch (pad3 (mantissa3 q % 1000)) hp3
    ('-' :: (if (sciExp q).natAbs < 10 then '0' :: natDigits (sciExp q).natAbs
      else natDigits (sciExp q).natAbs))
    (fun hm => by
      rcases List.mem_cons.mp hm with h | h
      · exact absurd h (by decide)
      · exact hedsp h)
  rw [replEP_no_plus _ hnop]
  refine ⟨(if q < 0 then ['-'] else []) ++
    digitCh (mantissa3 q / 1000) :: '.' :: pad3 (mantissa3 q % 1000),
    (if (sciExp q).natAbs < 10 then '0' :: natDigits (sciExp q).natAbs
      else natDigits (sciExp q).natAbs), ?_⟩
  simp [List.append_assoc]

theorem decExp_00034 : decExp (mkRat 17 5000) = -3 := by
  have h1 : pow10le (-2) (mkRat 17 5000) = false := by
    unfold pow10le
    rw [if_neg (by decide)]
    show decide ((1:ℚ) ≤ mkRat 17 5000 * 10 ^ (2:ℕ)) = false
    apply decide_eq_false
    rw [Rat.mkRat_eq_div]
    norm_num
  have e0 : ((natLog10 (mkRat 17 5000).num.toNat : ℤ)
      - natLog10 (mkRat 17 5000).den) = -2 := by decide
  unfold decExp
  dsimp only
  rw [e0, h1]
  decide

theorem mantissaRaw_00034 : mantissaRaw (mkRat 17 5000) = 3400 := by
  unfold mantissaRaw
  have habs : |(mkRat 17 5000 : ℚ)| = mkRat 17 5000 := by decide
  rw [habs, decExp_00034]
  have hdiv : divPow10 (mkRat 17 5000 * 1000) (-3) = 3400 := by
    unfold divPow10
    rw [if_neg (by decide)]
    show (mkRat 17 5000 : ℚ) * 1000 * 10 ^ (3:ℕ) = 3400
    rw [Rat.mkRat_eq_div]
    norm_num
  rw [hdiv]
  unfold roundHalfEven
  dsimp only
  have hcond : (3400:ℚ) - ((⌊(3400:ℚ)⌋ : ℤ) : ℚ) < mkRat 1 2 := by
    rw [mkRat_one_two]
    norm_num
  rw [if_pos hcond]
  norm_num

theorem procValue_00034 : procValue (mkRat 17 5000) = "3.400e-03" := by
  have hm : mantissa3 (mkRat 17 5000) = 3400 := by
    unfold mantissa3
    rw [mantissaRaw_00034]
    decide
  have he : sciExp (mkRat 17 5000) = -3 := by
    unfold sciExp
    rw [mantissaRaw_00034]
    have habs : |(mkRat 17 5000 : ℚ)| = mkRat 17 5000 := by decide
    rw [if_neg (by decide), habs, decExp_00034]
  unfold procValue replaceEPlus formatValue
  rw [if_pos (Or.inl (by decide))]
  have hdata := pyFmtE3_data (mkRat 17 5000) (by decide)
  rw [hm, he] at hdata
  rw [hdata]
  decide

/-- CLAIM C5 (counterexample).  The claim says the value `0.0034` is
rendered as the string `3.400e-3`.  Python's `.3e` format always prints at
least two exponent digits, so the code renders `3.400e-03` (the `e+` → `e`
rewrite does not touch negative exponents), and the claimed string differs. -/
theorem c5_example_counterexample :
    (mkRat 17 5000 : ℚ) = 0.0034 ∧
      procValue (mkRat 17 5000) = "3.400e-03" ∧
      procValue (mkRat 17 5000) ≠ "3.400e-3" := by
  refine ⟨by rw [Rat.mkRat_eq_div]; norm_num, procValue_00034, ?_⟩
  rw [procValue_00034]
  decide

/-- CLAIM C5 (amended).  Every substituted value with magnitude below 1e-2
or above 1e6 is rendered in scientific shape: optional minus, one mantissa
digit, a point, exactly three mantissa decimals, the marker `e`, and an
exponent consisting of an optional minus (the `e+` marker of nonnegative
exponents is rewritten to `e`) and at least two exponent digits; every other
value is rendered in fixed-point shape with exactly three decimals; no
rendered value ever contains a plus sign; values with magnitude below 1e-2
(other than zero) keep their `e-` marker; and the value `0.0034` is rendered
as `3.400e-03` (amendment: two exponent digits, not the claimed
`3.400e-3`). -/
theorem c5_value_formatting :
    (∀ q : ℚ, (|q| < mkRat 1 100 ∨ (1000000:ℚ) < |q|) →
        sciShapeStr (procValue q) = true)
    ∧ (∀ q : ℚ, ¬ (|q| < mkRat 1 100 ∨ (1000000:ℚ) < |q|) →
        fixedShapeStr (procValue q) = true)
    ∧ (∀ q : ℚ, '+' ∉ (procValue q).data)
    ∧ (∀ q : ℚ, q ≠ 0 → |q| < mkRat 1 100 →
        ['e', '-'] <:+: (procValue q).data)
    ∧ ((mkRat 17 5000 : ℚ) = 0.0034
        ∧ procValue (mkRat 17 5000) = "3.400e-03") := by
  refine ⟨?_, ?_, ?_, ?_, by rw [Rat.mkRat_eq_div]; norm_num,
    procValue_00034⟩
  · intro q hcond
    show sciShape (replEP (formatValue q).data) = true
    unfold formatValue
    rw [if_pos hcond]
    exact sciShape_replaceEPlus_pyFmtE3 q
  · intro q hcond
    show fixedShape (replEP (formatValue q).data) = true
    unfold formatValue
    rw [if_neg hcond]
    exact fixedShape_replaceEPlus_pyFmtF3 q
  · intro q
    show '+' ∉ replEP (formatValue q).data
    unfold formatValue
    split
    · exact plus_not_mem_pyFmtE3_repl q
    · exact plus_not_mem_pyFmtF3_repl q
  · intro q hq hsmall
    show ['e', '-'] <:+: replEP (formatValue q).data
    unfold formatValue
    rw [if_pos (Or.inl hsmall)]
    exact eMinus_infix_pyFmtE3 q hq (sciExp_neg_of_small q hq hsmall)

/-- Witness for C5 at the concrete values `0.0034` (scientific regime) and
`1` (fixed regime). -/
theorem c5_value_formatting_witness :
    sciShapeStr (procValue (mkRat 17 5000)) = true ∧
      fixedShapeStr (procValue 1) = true :=
  ⟨c5_value_formatting.1 (mkRat 17 5000) (Or.inl (by decide)),
   c5_value_formatting.2.1 1 (by decide)⟩

/-- The filename built by `generate_filename` (batch_demo.py, lines 126-146)
for the default naming template
`batch_model_Kch_{K_ch}_Wch_{W_ch}_Wrib_{W_rib}` and extension `.mph`
(line 129-130), with the three placeholder values substituted in template
order; the `e+` → `e` replacement runs on the whole name after the extension
is appended (lines 140-144). -/
def generateFilename (k w r : ℚ) : String :=
  replaceEPlus ("batch_model_Kch_" ++ formatValue k ++ "_Wch_" ++
    formatValue w ++ "_Wrib_" ++ formatValue r ++ ".mph")

theorem formatValue_head_ne_plus (q : ℚ) :
    (formatValue q).data.head? ≠ some '+' := by
  unfold formatValue
  split
  · by_cases hq : q = 0
    · subst hq
      decide
    · rw [pyFmtE3_data q hq]
      split
      · intro h
        injection h with h'
        exact absurd h' (by decide)
      · intro h
        injection h with h'
        exact isDigitCh_ne (isDigitCh_digitCh _) (by decide) h'
  · rw [pyFmtF3_data]
    obtain ⟨d, ds, hds⟩ := List.exists_cons_of_ne_nil
      (natDigits_ne_nil ((roundHalfEven (q * 1000)).natAbs / 1000))
    rw [hds]
    split
    · intro h
      injection h with h'
      exact absurd h' (by decide)
    · intro h
      injection h with h'
      refine isDigitCh_ne ?_ (by decide : isDigitCh '+' = false) h'
      exact natDigits_all_digit _ d (by rw [hds]; exact List.mem_cons_self d ds)

theorem head_append_ne_plus {l X : List Char} (h1 : l.head? ≠ some '+')
    (h2 : X.head? ≠ some '+') : (l ++ X).head? ≠ some '+' := by
  cases l with
  | nil => simpa using h2
  | cons c t => simpa using h1

theorem replEP_filename_split (fk fw fr : List Char)
    (hk : fk.head? ≠ some '+') (hw : fw.head? ≠ some '+')
    (hr : fr.head? ≠ some '+') :
    replEP ("batch_model_Kch_".data ++ (fk ++ ("_Wch_".data ++ (fw ++
      ("_Wrib_".data ++ (fr ++ ".mph".data)))))) =
    "batch_model_Kch_".data ++ (replEP fk ++ ("_Wch_".data ++ (replEP fw ++
      ("_Wrib_".data ++ (replEP fr ++ ".mph".data))))) := by
  have hmph : (".mph".data : List Char).head? ≠ some '+' := by decide
  have hwch : ("_Wch_".data ++ (fw ++ ("_Wrib_".data ++ (fr ++
      ".mph".data)))).head? ≠ some '+' := by
    show some '_' ≠ some '+'
    decide
  have hwrib : ("_Wrib_".data ++ (fr ++ ".mph".data)).head? ≠ some '+' := by
    show some '_' ≠ some '+'
    decide
  rw [replEP_append _ _ (head_append_ne_plus hk hwch),
    replEP_no_plus "batch_model_Kch_".data (by decide)]
  rw [replEP_append _ _ hwch]
  rw [replEP_append _ _ (head_append_ne_plus hw hwrib),
    replEP_no_plus "_Wch_".data (by decide)]
  rw [replEP_append _ _ hwrib]
  rw [replEP_append _ _ (head_append_ne_plus hr hmph),
    replEP_no_plus "_Wrib_".data (by decide)]
  rw [replEP_append _ _ hmph, replEP_no_plus ".mph".data (by decide)]

theorem generateFilename_data (k w r : ℚ) :
    (generateFilename k w r).data =
      "batch_model_Kch_".data ++ ((procValue k).data ++ ("_Wch_".data ++
        ((procValue w).data ++ ("_Wrib_".data ++
          ((procValue r).data ++ ".mph".data))))) := by
  show replEP ("batch_model_Kch_" ++ formatValue k ++ "_Wch_" ++
      formatValue w ++ "_Wrib_" ++ formatValue r ++ ".mph").data = _
  rw [show ("batch_model_Kch_" ++ formatValue k ++ "_Wch_" ++ formatValue w
      ++ "_Wrib_" ++ formatValue r ++ ".mph").data =
      "batch_model_Kch_".data ++ ((formatValue k).data ++ ("_Wch_".data ++
        ((formatValue w).data ++ ("_Wrib_".data ++
          ((formatValue r).data ++ ".mph".data))))) by
    simp [String.data_append, List.append_assoc]]
  exact replEP_filename_split _ _ _ (formatValue_head_ne_plus k)
    (formatValue_head_ne_plus w) (formatValue_head_ne_plus r)

theorem mem_pyFmtE3_allowed (q : ℚ) :
    ∀ c ∈ (pyFmtE3 q).data,
      isDigitCh c = true ∨ c = '-' ∨ c = '.' ∨ c = 'e' ∨ c = '+' := by
  intro c hc
  by_cases hq : q = 0
  · subst hq
    have h9 : c ∈ ['0', '.', '0', '0', '0', 'e', '+', '0', '0'] := hc
    simp only [List.mem_cons, List.not_mem_nil, or_false] at h9
    rcases h9 with rfl | rfl | rfl | rfl | rfl | rfl | rfl | rfl | rfl
    all_goals first
      | exact Or.inl (by decide)
      | exact Or.inr (Or.inr (Or.inl rfl))
      | exact Or.inr (Or.inr (Or.inr (Or.inl rfl)))
      | exact Or.inr (Or.inr (Or.inr (Or.inr rfl)))
  · rw [pyFmtE3_data q hq] at hc
    rcases List.mem_append.mp hc with h | h
    · split at h
      · simp only [List.mem_singleton] at h
        exact Or.inr (Or.inl h)
      · cases h
    · rcases List.mem_cons.mp h with rfl | h
      · exact Or.inl (isDigitCh_digitCh _)
      · rcases List.mem_cons.mp h with rfl | h
        · exact Or.inr (Or.inr (Or.inl rfl))
        · rcases List.mem_append.mp h with h' | h'
          · exact Or.inl (pad3_all_digit _ c h')
          · rcases List.mem_cons.mp h' with rfl | h'
            · exact Or.inr (Or.inr (Or.inr (Or.inl rfl)))
            · rcases List.mem_cons.mp h' with h'' | h''
              · revert h''
                split
                · intro h''
                  exact Or.inr (Or.inl h'')
                · intro h''
                  exact Or.inr (Or.inr (Or.inr (Or.inr h'')))
              · exact Or.inl (expDigits_all _ c h'')

theorem mem_pyFmtF3_allowed (q : ℚ) :
    ∀ c ∈ (pyFmtF3 q).data,
      isDigitCh c = true ∨ c = '-' ∨ c = '.' ∨ c = 'e' ∨ c = '+' := by
  intro c hc
  rw [pyFmtF3_data] at hc
  rcases List.mem_append.mp hc with h | h
  · split at h
    · simp only [List.mem_singleton] at h
      exact Or.inr (Or.inl h)
    · cases h
  · rcases List.mem_append.mp h with h' | h'
    · exact Or.inl (natDigits_all_digit _ c h')
    · rcases List.mem_cons.mp h' with rfl | h'
      · exact Or.inr (Or.inr (Or.inl rfl))
      · exact Or.inl (pad3_all_digit _ c h')

theorem underscore_not_mem_procValue (q : ℚ) : '_' ∉ (procValue q).data := by
  show '_' ∉ replEP (formatValue q).data
  intro hm
  have hm' : '_' ∈ (formatValue q).data :=
    replEP_subset (formatValue q).data.length _ (Nat.le_refl _) _ hm
  have hall : isDigitCh '_' = true ∨ '_' = '-' ∨ '_' = '.' ∨ '_' = 'e'
      ∨ '_' = '+' := by
    revert hm'
    unfold formatValue
    split
    · exact mem_pyFmtE3_allowed q '_'
    · exact mem_pyFmtF3_allowed q '_'
  rcases hall with h | h | h | h | h <;> exact absurd h (by decide)

theorem underscore_split (x x' t t' : List Char) (hx : '_' ∉ x)
    (hx' : '_' ∉ x') (he : x ++ '_' :: t = x' ++ '_' :: t') :
    x = x' ∧ t = t' := by
  induction x generalizing x' with
  | nil =>
    cases x' with
    | nil => simpa using he
    | cons b y' =>
      rw [List.nil_append] at he
      injection he with h1 h2
      exact absurd (by rw [h1]; exact List.mem_cons_self b y') hx'
  | cons a y ih =>
    cases x' with
    | nil =>
      rw [List.nil_append] at he
      injection he with h1 h2
      exact absurd (by rw [← h1]; exact List.mem_cons_self a y) hx
    | cons b y' =>
      injection he with h1 h2
      subst h1
      obtain ⟨hy, ht⟩ := ih y' (fun hm => hx (List.mem_cons_of_mem a hm))
        (fun hm => hx' (List.mem_cons_of_mem a hm)) h2
      exact ⟨by rw [hy], ht⟩

/-- CLAIM C7.  For the fixed naming configuration the Filename Encoder is a
pure function of the combination, and two combinations receive the same name
exactly when every placeholder parameter is rendered to the identical
(3-decimal fixed or 3-decimal-mantissa scientific) representation.  In
particular identical combinations always get identical names, and a
collision forces all three rendered placeholder values to agree. -/
theorem c7_filename_encoder (k w r k' w' r' : ℚ) :
    generateFilename k w r = generateFilename k' w' r' ↔
      (procValue k = procValue k' ∧ procValue w = procValue w'
        ∧ procValue r = procValue r') := by
  constructor
  · intro h
    have hd : (generateFilename k w r).data
        = (generateFilename k' w' r').data := congrArg String.data h
    rw [generateFilename_data, generateFilename_data] at hd
    have hd1 := List.append_cancel_left hd
    have hd2 : (procValue k).data ++ '_' :: ("Wch_".data ++
        ((procValue w).data ++ ("_Wrib_".data ++
          ((procValue r).data ++ ".mph".data))))
        = (procValue k').data ++ '_' :: ("Wch_".data ++
        ((procValue w').data ++ ("_Wrib_".data ++
          ((procValue r').data ++ ".mph".data)))) := hd1
    obtain ⟨hk, hrest⟩ := underscore_split _ _ _ _
      (underscore_not_mem_procValue k) (underscore_not_mem_procValue k') hd2
    have hrest2 := List.append_cancel_left hrest
    have hd3 : (procValue w).data ++ '_' :: ("Wrib_".data ++
        ((procValue r).data ++ ".mph".data))
        = (procValue w').data ++ '_' :: ("Wrib_".data ++
        ((procValue r').data ++ ".mph".data)) := hrest2
    obtain ⟨hw, hrest3⟩ := underscore_split _ _ _ _
      (underscore_not_mem_procValue w) (underscore_not_mem_procValue w') hd3
    have hrest4 := List.append_cancel_left hrest3
    have hr := List.append_cancel_right hrest4
    exact ⟨String.ext hk, String.ext hw, String.ext hr⟩
  · rintro ⟨h1, h2, h3⟩
    apply String.ext
    rw [generateFilename_data, generateFilename_data,
      congrArg String.data h1, congrArg String.data h2,
      congrArg String.data h3]
